import Mathlib

/-!
Verification of the pepr admission-processing pipeline.

The development shallowly embeds the `processor` function of
`src/lib/k8s/webhook.ts` (the admission processor), together with the type
model of `types.ts`, a model of the external `fast-json-patch` library
(`compare`, here `Json.diff`, and RFC 6902 patch application, here
`Json.applyPatch`), and spec-modelled versions of the parts of the
repository that are not present under `src/` (the request filter
`shouldSkipRequest` of `filter.ts` and the request wrapper of `request.ts`).

JSON documents are modelled as trees; JavaScript objects are association
lists that preserve insertion order, with the well-formedness predicate
`Json.wf` expressing that no object has duplicate keys (which JavaScript
objects cannot have).  Callbacks are modelled as functions from the mutable
working copy `Raw` to a pair of the new `Raw` value and an optional thrown
error, so that mutations applied before a throw are visible, exactly as in
the JavaScript heap.
-/

/-- JSON document tree.  Models the schemaless resource payloads processed by
the admission pipeline: JavaScript objects are ordered association lists. -/
inductive Json where
  | null : Json
  | bool (b : Bool) : Json
  | num (n : Int) : Json
  | str (s : String) : Json
  | arr (items : List Json) : Json
  | obj (fields : List (String × Json)) : Json
  deriving Repr

mutual

/-- Structural boolean equality on JSON trees. -/
def Json.beq : Json → Json → Bool
  | .null, .null => true
  | .bool a, .bool b => a == b
  | .num a, .num b => a == b
  | .str a, .str b => a == b
  | .arr xs, .arr ys => Json.beqList xs ys
  | .obj xs, .obj ys => Json.beqFields xs ys
  | _, _ => false

def Json.beqList : List Json → List Json → Bool
  | [], [] => true
  | x :: xs, y :: ys => Json.beq x y && Json.beqList xs ys
  | _, _ => false

def Json.beqFields : List (String × Json) → List (String × Json) → Bool
  | [], [] => true
  | (k1, v1) :: xs, (k2, v2) :: ys => k1 == k2 && Json.beq v1 v2 && Json.beqFields xs ys
  | _, _ => false

end

mutual

def Json.eq_of_beq : ∀ {a b : Json}, Json.beq a b = true → a = b
  | .null, .null, _ => rfl
  | .bool _, .bool _, h => by
    simp only [Json.beq, beq_iff_eq] at h; simp [h]
  | .num _, .num _, h => by
    simp only [Json.beq, beq_iff_eq] at h; simp [h]
  | .str _, .str _, h => by
    simp only [Json.beq, beq_iff_eq] at h; simp [h]
  | .arr _, .arr _, h => by
    simp only [Json.beq] at h
    exact congrArg Json.arr (Json.eqList_of_beqList h)
  | .obj _, .obj _, h => by
    simp only [Json.beq] at h
    exact congrArg Json.obj (Json.eqFields_of_beqFields h)

def Json.eqList_of_beqList : ∀ {xs ys : List Json}, Json.beqList xs ys = true → xs = ys
  | [], [], _ => rfl
  | x :: xs, y :: ys, h => by
    simp only [Json.beqList, Bool.and_eq_true] at h
    rw [Json.eq_of_beq h.1, Json.eqList_of_beqList h.2]

def Json.eqFields_of_beqFields :
    ∀ {xs ys : List (String × Json)}, Json.beqFields xs ys = true → xs = ys
  | [], [], _ => rfl
  | (k1, v1) :: xs, (k2, v2) :: ys, h => by
    simp only [Json.beqFields, Bool.and_eq_true, beq_iff_eq] at h
    rw [h.1.1, Json.eq_of_beq h.1.2, Json.eqFields_of_beqFields h.2]

end

mutual

def Json.beq_refl : ∀ (a : Json), Json.beq a a = true
  | .null => rfl
  | .bool _ => by simp [Json.beq]
  | .num _ => by simp [Json.beq]
  | .str _ => by simp [Json.beq]
  | .arr xs => Json.beqList_refl xs
  | .obj fs => Json.beqFields_refl fs

def Json.beqList_refl : ∀ (xs : List Json), Json.beqList xs xs = true
  | [] => rfl
  | x :: xs => by
    simp only [Json.beqList, Bool.and_eq_true]
    exact ⟨Json.beq_refl x, Json.beqList_refl xs⟩

def Json.beqFields_refl : ∀ (xs : List (String × Json)), Json.beqFields xs xs = true
  | [] => rfl
  | (k, v) :: xs => by
    simp only [Json.beqFields, Bool.and_eq_true, beq_iff_eq]
    exact ⟨⟨trivial, Json.beq_refl v⟩, Json.beqFields_refl xs⟩

end

instance : DecidableEq Json := fun a b =>
  decidable_of_iff (Json.beq a b = true)
    ⟨Json.eq_of_beq, fun h => h ▸ Json.beq_refl a⟩

/-- Property read on a JavaScript object: value of the first entry with the
given key, or `none` when absent. -/
def getF : List (String × Json) → String → Option Json
  | [], _ => none
  | (k, v) :: rest, key => if k = key then some v else getF rest key

/-- Property write on a JavaScript object: replaces the value in place when
the key is present and appends a new entry (JavaScript insertion order)
otherwise. -/
def setF : List (String × Json) → String → Json → List (String × Json)
  | [], key, v => [(key, v)]
  | (k, w) :: rest, key, v =>
    if k = key then (k, v) :: rest else (k, w) :: setF rest key v

/-- Property delete on a JavaScript object. -/
def delF : List (String × Json) → String → List (String × Json)
  | [], _ => []
  | (k, w) :: rest, key => if k = key then rest else (k, w) :: delF rest key

/-- Key uniqueness of a JavaScript object's entry list (the keys-only part of
well-formedness). -/
def keysOk : List (String × Json) → Bool
  | [] => true
  | (k, _) :: rest => (getF rest k).isNone && keysOk rest

mutual

/-- Well-formed JSON documents: no object carries a duplicate key, at any
depth.  JavaScript objects satisfy this by construction. -/
def Json.wf : Json → Bool
  | .arr xs => Json.wfList xs
  | .obj fs => Json.wfFields fs
  | _ => true

def Json.wfList : List Json → Bool
  | [] => true
  | v :: rest => Json.wf v && Json.wfList rest

def Json.wfFields : List (String × Json) → Bool
  | [] => true
  | (k, v) :: rest => (getF rest k).isNone && Json.wf v && Json.wfFields rest

end

mutual

/-- Structural equality of JSON documents in the RFC 6902 sense: arrays are
compared pointwise in order, objects are compared as unordered key/value
maps. -/
def Json.eqv : Json → Json → Bool
  | .arr xs, .arr ys => Json.eqvList xs ys
  | .obj xs, .obj ys => Json.eqvFields xs ys && ys.all (fun p => (getF xs p.1).isSome)
  | a, b => Json.beq a b

def Json.eqvList : List Json → List Json → Bool
  | [], [] => true
  | x :: xs, y :: ys => Json.eqv x y && Json.eqvList xs ys
  | _, _ => false

def Json.eqvFields : List (String × Json) → List (String × Json) → Bool
  | [], _ => true
  | (k, v) :: rest, ys =>
    (match getF ys k with
     | some w => Json.eqv v w
     | none => false) && Json.eqvFields rest ys

end

/-- Path token of a JSON pointer: an object member name or an array index.
The serialized wire form renders both as strings ("/a/0"); the structured
form keeps the interpretation that the diff generator committed to. -/
inductive Tok where
  | key (s : String) : Tok
  | idx (i : Nat) : Tok
  deriving DecidableEq, Repr

/-- RFC 6902 operation, restricted to the operation kinds that the
`fast-json-patch` diff generator emits (`add`, `remove`, `replace`). -/
inductive PatchOp where
  | add (path : List Tok) (value : Json) : PatchOp
  | remove (path : List Tok) : PatchOp
  | replace (path : List Tok) (value : Json) : PatchOp
  deriving DecidableEq, Repr

/-- Final step of an RFC 6902 `add`: insert into an array (shifting) or set an
object member (replacing an existing member, as RFC 6902 specifies). -/
def Json.addAct (v : Json) (t : Tok) : Json → Option Json
  | .obj fs =>
    match t with
    | .key k => some (.obj (setF fs k v))
    | .idx _ => none
  | .arr xs =>
    match t with
    | .idx i => if i ≤ xs.length then some (.arr (xs.insertIdx i v)) else none
    | .key _ => none
  | _ => none

/-- Final step of an RFC 6902 `remove`: the target member must exist. -/
def Json.removeAct (t : Tok) : Json → Option Json
  | .obj fs =>
    match t with
    | .key k => if (getF fs k).isSome then some (.obj (delF fs k)) else none
    | .idx _ => none
  | .arr xs =>
    match t with
    | .idx i => if i < xs.length then some (.arr (xs.eraseIdx i)) else none
    | .key _ => none
  | _ => none

/-- Final step of an RFC 6902 `replace`: the target member must exist. -/
def Json.replaceAct (v : Json) (t : Tok) : Json → Option Json
  | .obj fs =>
    match t with
    | .key k => if (getF fs k).isSome then some (.obj (setF fs k v)) else none
    | .idx _ => none
  | .arr xs =>
    match t with
    | .idx i => if i < xs.length then some (.arr (xs.set i v)) else none
    | .key _ => none
  | _ => none

/-- Walks a JSON pointer down to the parent of the target and applies the
final action there, rebuilding the spine. -/
def Json.applyInner (act : Tok → Json → Option Json) : Tok → List Tok → Json → Option Json
  | t, [], d => act t d
  | t, t2 :: rest, d =>
    match t, d with
    | .key k, .obj fs =>
      match getF fs k with
      | some c => (Json.applyInner act t2 rest c).map (fun c2 => Json.obj (setF fs k c2))
      | none => none
    | .idx i, .arr xs =>
      match xs[i]? with
      | some c => (Json.applyInner act t2 rest c).map (fun c2 => Json.arr (xs.set i c2))
      | none => none
    | _, _ => none

/-- Applies a single RFC 6902 operation.  An `add` or `replace` at the root
replaces the whole document; a `remove` of the root is invalid. -/
def Json.applyOp : PatchOp → Json → Option Json
  | .add [] v, _ => some v
  | .add (t :: rest) v, d => Json.applyInner (Json.addAct v) t rest d
  | .remove [], _ => none
  | .remove (t :: rest), d => Json.applyInner Json.removeAct t rest d
  | .replace [] v, _ => some v
  | .replace (t :: rest) v, d => Json.applyInner (Json.replaceAct v) t rest d

/-- Applies an RFC 6902 patch document: the operations in order, failing if
any operation fails. -/
def Json.applyPatch (ops : List PatchOp) (d : Json) : Option Json :=
  ops.foldl (fun acc op => acc.bind (Json.applyOp op)) (some d)

/-- Prepends a path token to an operation generated for a subdocument. -/
def prefixOp (t : Tok) : PatchOp → PatchOp
  | .add p v => .add (t :: p) v
  | .remove p => .remove (t :: p)
  | .replace p v => .replace (t :: p) v

/-- Remove operations for the tail of a shrunk array, at indices
`ol - 1, ol - 2, ..., nl`, in descending order so that each one applies
cleanly (this mirrors the reverse index loop of `fast-json-patch`). -/
def removeTail : Nat → Nat → List PatchOp
  | 0, _ => []
  | ol + 1, nl => if nl ≤ ol then .remove [.idx ol] :: removeTail ol nl else []

/-- Add operations appending the new elements of a grown array, in ascending
index order starting at the old length. -/
def addTail : Nat → List Json → List PatchOp
  | _, [] => []
  | i, v :: vs => .add [.idx i] v :: addTail (i + 1) vs

/-- Add operations for the keys present in the new object but absent from the
old one, in the new object's insertion order. -/
def diffAdds (o n : List (String × Json)) : List PatchOp :=
  (n.filter (fun p => (getF o p.1).isNone)).map (fun p => PatchOp.add [.key p.1] p.2)

mutual

/-- Models `compare` of the external `fast-json-patch` library as used by the
processor: a structural RFC 6902 diff from the old document to the new one.
Two objects or two arrays are diffed recursively (objects member-wise with
removes for dropped keys and adds for new keys, arrays index-wise with
removes of the dropped tail emitted at descending indices before the
per-index operations); any other changed pair is a `replace`. -/
def Json.diff : Json → Json → List PatchOp
  | .obj o, .obj n => Json.diffFields o n ++ diffAdds o n
  | .arr o, .arr n =>
    removeTail o.length n.length ++ Json.diffArrVals 0 o n ++
      addTail o.length (n.drop o.length)
  | a, b => if a = b then [] else [.replace [] b]

def Json.diffFields : List (String × Json) → List (String × Json) → List PatchOp
  | [], _ => []
  | (k, ov) :: rest, n =>
    (match getF n k with
     | some nv => (Json.diff ov nv).map (prefixOp (.key k))
     | none => [.remove [.key k]]) ++ Json.diffFields rest n

def Json.diffArrVals : Nat → List Json → List Json → List PatchOp
  | i, ov :: os, nv :: ns =>
    (Json.diff ov nv).map (prefixOp (.idx i)) ++ Json.diffArrVals (i + 1) os ns
  | _, _, _ => []

end

/-- Escapes a JSON pointer token for the wire form ("~" as "~0", "/" as
"~1"). -/
def escapeToken (s : String) : String :=
  String.join (s.toList.map (fun c =>
    if c = '~' then "~0" else if c = '/' then "~1" else String.singleton c))

/-- Wire form of a path token. -/
def Tok.render : Tok → String
  | .key s => escapeToken s
  | .idx i => toString i

/-- Wire form of a JSON pointer. -/
def renderPath (p : List Tok) : String :=
  String.join (p.map (fun t => "/" ++ Tok.render t))

/-- JSON value of a single patch operation, as serialized on the wire. -/
def PatchOp.toJson : PatchOp → Json
  | .add p v => .obj [("op", .str "add"), ("path", .str (renderPath p)), ("value", v)]
  | .remove p => .obj [("op", .str "remove"), ("path", .str (renderPath p))]
  | .replace p v => .obj [("op", .str "replace"), ("path", .str (renderPath p)), ("value", v)]

/-- JSON value of a patch document, as serialized by `JSON.stringify` in the
processor. -/
def serializePatch (ops : List PatchOp) : Json :=
  .arr (ops.map PatchOp.toJson)

/-- Checks that a JSON value is a well-formed RFC 6902 operation of kind
`add`, `remove` or `replace`: an object with string `op` and `path` members,
and with a `value` member exactly when the kind requires one. -/
def isValidPatchOpJson (j : Json) : Bool :=
  match j with
  | .obj fs =>
    match getF fs "op", getF fs "path" with
    | some (.str o), some (.str _) =>
      (o == "remove" && (getF fs "value").isNone) ||
        ((o == "add" || o == "replace") && (getF fs "value").isSome)
    | _, _ => false
  | _ => false

/-- Checks that a JSON value is a well-formed RFC 6902 patch document. -/
def isValidPatchJson (j : Json) : Bool :=
  match j with
  | .arr xs => xs.all isValidPatchOpJson
  | _ => false

/-- Mutating-webhook event kind a binding is registered for, from the `Event`
enum of `types.ts`. -/
inductive Event where
  | create : Event
  | update : Event
  | delete : Event
  | createOrUpdate : Event
  deriving DecidableEq, Repr

/-- Admission operation of the inbound request (`CREATE`, `UPDATE`, `DELETE`
or `CONNECT`). -/
inductive Operation where
  | CREATE : Operation
  | UPDATE : Operation
  | DELETE : Operation
  | CONNECT : Operation
  deriving DecidableEq, Repr

/-- Group/Version/Kind triple; an empty `group` or `version` field acts as a
wildcard on that dimension. -/
structure GroupVersionKind where
  kind : String
  group : String := ""
  version : String := ""
  deriving DecidableEq, Repr

/-- The `filters` record of a `Binding` from `types.ts`: namespace set, label
map and annotation map, all conjunctive. -/
structure BindingFilters where
  namespaces : List String := []
  labels : List (String × String) := []
  annotations : List (String × String) := []
  deriving DecidableEq, Repr

/-- A binding from `types.ts`: optional event, kind, filters and the user
callback.  The callback receives the mutable working copy `Raw` and returns
the new `Raw` value together with an optional thrown error; mutations applied
before a throw stay visible in the returned document, as in the JavaScript
heap. -/
structure Binding where
  event : Option Event := none
  kind : GroupVersionKind
  filters : BindingFilters := {}
  callback : Json → Json × Option String

/-- A capability: name, optional namespace restriction (from `CapabilityCfg`
of `types.ts`) and its bindings in registration order. -/
structure Capability where
  name : String
  namespaces : List String := []
  bindings : List Binding

/-- Global exclusions from `types.ts` (`ModuleIgnore`). -/
structure ModuleIgnore where
  kinds : List GroupVersionKind := []
  namespaces : List String := []
  labels : List (List (String × String)) := []
  deriving DecidableEq, Repr

/-- Module configuration from `types.ts` (`ModuleConfig`).  The processor in
`webhook.ts` additionally reads `config.rejectOnError`, which the TypeScript
type in this snapshot does not declare; it is included here because the
processor requires it. -/
structure ModuleConfig where
  id : String
  description : String := ""
  alwaysIgnore : ModuleIgnore := {}
  rejectOnError : Bool := false
  deriving DecidableEq, Repr

/-- Modelled from the spec: the admission `Request` shape of `k8s/types.ts`,
which is not under `src/`.  Fields follow section 3 of the specification:
`uid`, `kind`, `name`, `namespace`, `operation`, `object` and `oldObject`. -/
structure Request where
  uid : String
  kind : GroupVersionKind
  name : String := ""
  «namespace» : String := ""
  operation : Operation
  object : Json
  oldObject : Json := .null
  deriving DecidableEq, Repr

/-- Modelled from the spec: the admission `Response` shape of `k8s/types.ts`,
which is not under `src/`.  The `patch` field carries the structured patch
document whose wire form is `JSON.stringify` of `serializePatch`. -/
structure Response where
  uid : String
  allowed : Bool
  patchType : String := "JSONPatch"
  patch : Option (List PatchOp) := none
  warnings : List String := []
  result : Option String := none
  deriving DecidableEq, Repr

/-- Event-mismatch test of the filter (spec section 4.1 step 1): an exact
operation match per event kind, with `createOrUpdate` skipping only `DELETE`
and `CONNECT`. -/
def eventMismatch (e : Event) (op : Operation) : Bool :=
  match e, op with
  | .create, .CREATE => false
  | .create, _ => true
  | .update, .UPDATE => false
  | .update, _ => true
  | .delete, .DELETE => false
  | .delete, _ => true
  | .createOrUpdate, .DELETE => true
  | .createOrUpdate, .CONNECT => true
  | .createOrUpdate, _ => false

/-- Kind-mismatch test of the filter (spec section 4.1 step 5): kinds must
agree, and a non-empty group or version on the binding must agree as well. -/
def kindMismatch (b : GroupVersionKind) (r : GroupVersionKind) : Bool :=
  b.kind != r.kind || (b.group != "" && b.group != r.group) ||
    (b.version != "" && b.version != r.version)

/-- Reads a metadata map (`labels` or `annotations`) out of a document,
yielding the empty map when any level is absent or not an object. -/
def Json.metaMap (j : Json) (field : String) : List (String × Json) :=
  match j with
  | .obj fs =>
    match getF fs "metadata" with
    | some (.obj ms) =>
      match getF ms field with
      | some (.obj as) => as
      | _ => []
    | _ => []
  | _ => []

/-- Document whose metadata the filter consults: `oldObject` for `DELETE`
(which carries no `object`), `object` otherwise (spec section 8, boundary
behaviors). -/
def filterSource (req : Request) : Json :=
  match req.operation with
  | .DELETE => req.oldObject
  | _ => req.object

/-- One key/value matcher of the filter (spec section 4.1 steps 7 and 8): the
key must be present; a non-empty expected value must equal the stored one. -/
def kvMatch (entries : List (String × Json)) (k v : String) : Bool :=
  match getF entries k with
  | some w => v == "" || decide (w = Json.str v)
  | none => false

/-- Modelled from the spec: `shouldSkipRequest` of `filter.ts`, which is not
under `src/`.  Returns true when the binding must not run for this request
(spec section 4.1).  The processor calls it as `shouldSkipRequest(action,
req)`, without the module configuration, so the global `alwaysIgnore` steps
2-4 of the spec (which need the configuration) cannot be part of this
function; the binding-local steps 1 and 5-8 are modelled.  Namespace
filtering treats an empty request namespace as belonging to no set. -/
def shouldSkipRequest (action : Binding) (req : Request) : Bool :=
  (match action.event with
   | some e => eventMismatch e req.operation
   | none => false) ||
  kindMismatch action.kind req.kind ||
  (!action.filters.namespaces.isEmpty &&
    (req.«namespace» == "" || !action.filters.namespaces.contains req.«namespace»)) ||
  action.filters.labels.any
    (fun p => !kvMatch (Json.metaMap (filterSource req) "labels") p.1 p.2) ||
  action.filters.annotations.any
    (fun p => !kvMatch (Json.metaMap (filterSource req) "annotations") p.1 p.2)

/-- JavaScript falsiness on JSON values, for the `metadata.annotations ||
{}` normalization in the processor. -/
def falsyJson : Json → Bool
  | .null => true
  | .bool false => true
  | .num 0 => true
  | .str "" => true
  | _ => false

/-- Models the annotation-stamping statements of the processor
(`webhook.ts`): `const { metadata } = wrapped.Raw; metadata.annotations =
metadata.annotations || {}; metadata.annotations[identifier] = value`.
Returns `none` when the write would throw in JavaScript (no `metadata`
object on `Raw`, or a truthy non-object `annotations` member). -/
def stampAnn (raw : Json) (key value : String) : Option Json :=
  match raw with
  | .obj fs =>
    match getF fs "metadata" with
    | some (.obj ms) =>
      (match getF ms "annotations" with
       | some (.obj as) => some as
       | some v => if falsyJson v then some [] else none
       | none => some ([] : List (String × Json))).map
        (fun as =>
          Json.obj (setF fs "metadata"
            (Json.obj (setF ms "annotations" (Json.obj (setF as key (.str value)))))))
    | _ => none
  | _ => none

/-- Reads an annotation value from a document's `metadata.annotations`. -/
def annGet (raw : Json) (key : String) : Option Json :=
  getF (Json.metaMap raw "annotations") key

/-- The annotation identifier the processor stamps:
`pepr.dev/{config.id}/{capability.name}`. -/
def identifierOf (cfg : ModuleConfig) (capName : String) : String :=
  "pepr.dev/" ++ cfg.id ++ "/" ++ capName

/-- Outcome of one binding during an execution: filtered out, ran and
succeeded, ran and threw, or never reached (an earlier failure returned
early). -/
inductive Outcome where
  | skipped : Outcome
  | succeeded : Outcome
  | failed : Outcome
  | notReached : Outcome
  deriving DecidableEq, Repr

/-- Execution-trace entry for one binding: the capability it belongs to, its
outcome, the working copy before the binding, the document the callback
returned (equal to `rawBefore` for bindings that did not run), and the
working copy after the binding. -/
structure Step where
  capName : String
  outcome : Outcome
  rawBefore : Json
  cbRaw : Json
  rawAfter : Json
  deriving DecidableEq, Repr

/-- Control mode of the processor loop: still iterating, returned early
because of `rejectOnError`, or aborted by an uncaught JavaScript error
outside the `try` block (a stamp on a document without a `metadata`
object). -/
inductive PMode where
  | running : PMode
  | halted : PMode
  | thrown : PMode
  deriving DecidableEq, Repr

/-- Loop state of the processor: the working copy `Raw`, the accumulated
warnings, the execution trace, and the control mode. -/
structure PState where
  raw : Json
  warnings : List String
  steps : List Step
  mode : PMode
  deriving DecidableEq, Repr

/-- One iteration of the inner binding loop of `processor` (`webhook.ts`):
skip per the filter, stamp `"started"`, run the callback, then stamp
`"succeeded"`, or on a throw push an `"Action failed"` warning and either
return early (`rejectOnError`) or stamp `"warning"` and continue. -/
def runBinding (cfg : ModuleConfig) (req : Request) (capName : String)
    (st : PState) (b : Binding) : PState :=
  match st.mode with
  | .thrown => st
  | .halted =>
    { st with
      steps := st.steps ++
        [{ capName := capName, outcome := .notReached, rawBefore := st.raw,
           cbRaw := st.raw, rawAfter := st.raw }] }
  | .running =>
    if shouldSkipRequest b req then
      { st with
        steps := st.steps ++
          [{ capName := capName, outcome := .skipped, rawBefore := st.raw,
             cbRaw := st.raw, rawAfter := st.raw }] }
    else
      let idf := identifierOf cfg capName
      match stampAnn st.raw idf "started" with
      | none => { st with mode := .thrown }
      | some r1 =>
        let res := b.callback r1
        match res.2 with
        | none =>
          match stampAnn res.1 idf "succeeded" with
          | none => { st with mode := .thrown }
          | some r3 =>
            { st with
              raw := r3,
              steps := st.steps ++
                [{ capName := capName, outcome := .succeeded, rawBefore := st.raw,
                   cbRaw := res.1, rawAfter := r3 }] }
        | some e =>
          let warns := st.warnings ++ ["Action failed: " ++ e]
          if cfg.rejectOnError then
            { st with
              raw := res.1, warnings := warns, mode := .halted,
              steps := st.steps ++
                [{ capName := capName, outcome := .failed, rawBefore := st.raw,
                   cbRaw := res.1, rawAfter := res.1 }] }
          else
            match stampAnn res.1 idf "warning" with
            | none => { st with warnings := warns, mode := .thrown }
            | some r3 =>
              { st with
                raw := r3, warnings := warns,
                steps := st.steps ++
                  [{ capName := capName, outcome := .failed, rawBefore := st.raw,
                     cbRaw := res.1, rawAfter := r3 }] }

/-- The capability loop body of `processor`: iterates the capability's
bindings in registration order.  Note that, as in the source, the
capability's `namespaces` restriction is not consulted. -/
def runCap (cfg : ModuleConfig) (req : Request) (st : PState) (cap : Capability) : PState :=
  cap.bindings.foldl (runBinding cfg req cap.name) st

/-- The full processor loop over all capabilities, started on the request
wrapper's working copy.  Modelled from the spec: the `RequestWrapper` of
`request.ts` is not under `src/`; per spec section 4.2 it exposes `Raw` as a
deep clone of `request.object`, which under value semantics is
`request.object` itself. -/
def runAll (cfg : ModuleConfig) (caps : List Capability) (req : Request) : PState :=
  caps.foldl (runCap cfg req)
    { raw := req.object, warnings := [], steps := [], mode := .running }

/-- Result of one processor execution: the admission response, the
execution trace, and the final working copy. -/
structure ProcResult where
  response : Response
  steps : List Step
  raw : Json
  deriving DecidableEq, Repr

/-- The `processor` function of `webhook.ts`, instrumented with the
execution trace.  On the `rejectOnError` early return the response keeps
`allowed = false`, carries the fixed `result` string and no patch; otherwise
`allowed` is set to `true` and the patch is the diff from `request.object`
to the final working copy.  `none` models an uncaught JavaScript error
escaping `processor` (no response). -/
def processorT (cfg : ModuleConfig) (caps : List Capability) (req : Request) :
    Option ProcResult :=
  let st := runAll cfg caps req
  match st.mode with
  | .thrown => none
  | .halted =>
    some { response :=
            { uid := req.uid, allowed := false, patchType := "JSONPatch",
              warnings := st.warnings,
              result := some "Pepr module configured to reject on error",
              patch := none },
           steps := st.steps, raw := st.raw }
  | .running =>
    some { response :=
            { uid := req.uid, allowed := true, patchType := "JSONPatch",
              warnings := st.warnings, result := none,
              patch := some (Json.diff req.object st.raw) },
           steps := st.steps, raw := st.raw }

/-- The `processor` function of `webhook.ts`: the admission response alone. -/
def processor (cfg : ModuleConfig) (caps : List Capability) (req : Request) :
    Option Response :=
  (processorT cfg caps req).map ProcResult.response

/-- The processor with the diff library left abstract and fallible, to examine
the behavior when the diff step cannot produce a patch.  The source calls
`compare(req.object, wrapped.Raw)` with no surrounding `try`, so a diff
failure propagates out of `processor` (`none`: no response). -/
def processorTD (diffFn : Json → Json → Except String (List PatchOp))
    (cfg : ModuleConfig) (caps : List Capability) (req : Request) :
    Option ProcResult :=
  let st := runAll cfg caps req
  match st.mode with
  | .thrown => none
  | .halted =>
    some { response :=
            { uid := req.uid, allowed := false, patchType := "JSONPatch",
              warnings := st.warnings,
              result := some "Pepr module configured to reject on error",
              patch := none },
           steps := st.steps, raw := st.raw }
  | .running =>
    match diffFn req.object st.raw with
    | .error _ => none
    | .ok patches =>
      some { response :=
              { uid := req.uid, allowed := true, patchType := "JSONPatch",
                warnings := st.warnings, result := none,
                patch := some patches },
             steps := st.steps, raw := st.raw }

/-- A minimal Pod-like inbound object with a `metadata` object and no
annotations. -/
def objW : Json :=
  .obj [("apiVersion", .str "v1"), ("kind", .str "Pod"),
        ("metadata", .obj [("name", .str "p1")])]

/-- GVK of the example requests. -/
def gvkPod : GroupVersionKind := { kind := "Pod", group := "", version := "v1" }

/-- Example request: `CREATE` of a Pod named `p1` in namespace `default`. -/
def reqW : Request :=
  { uid := "uid-1", kind := gvkPod, name := "p1", «namespace» := "default",
    operation := .CREATE, object := objW, oldObject := .null }

/-- Callback that mutates nothing and succeeds. -/
def cbId : Json → Json × Option String := fun raw => (raw, none)

/-- Callback that mutates nothing and throws `"boom"`. -/
def cbFail : Json → Json × Option String := fun raw => (raw, some "boom")

/-- Callback that applies a partial mutation (a top-level `partial` member)
and then throws. -/
def cbPartial : Json → Json × Option String := fun raw =>
  match raw with
  | .obj fs => (.obj (setF fs "partial" (.str "yes")), some "boom")
  | _ => (raw, some "boom")

/-- Callback that applies a mutation (a top-level `mutated` member) and
succeeds. -/
def cbMut : Json → Json × Option String := fun raw =>
  match raw with
  | .obj fs => (.obj (setF fs "mutated" (.str "yes")), none)
  | _ => (raw, none)

/-- Binding matching the example request, with the identity callback. -/
def bind0 : Binding := { kind := gvkPod, callback := cbId }

/-- Matching binding whose callback throws. -/
def bindFail : Binding := { kind := gvkPod, callback := cbFail }

/-- Matching binding whose callback partially mutates and throws. -/
def bindPartial : Binding := { kind := gvkPod, callback := cbPartial }

/-- Matching binding whose callback mutates and succeeds. -/
def bindMut : Binding := { kind := gvkPod, callback := cbMut }

/-- Binding registered for `update`, hence skipped on the `CREATE` example
request. -/
def bindSkip : Binding := { event := some .update, kind := gvkPod, callback := cbId }

/-- Example configuration with `rejectOnError = false`. -/
def cfgW : ModuleConfig := { id := "m" }

/-- Example configuration with `rejectOnError = true`. -/
def cfgWR : ModuleConfig := { id := "m", rejectOnError := true }

/-- Capability with one matching binding. -/
def capOne : Capability := { name := "capa", bindings := [bind0] }

/-- Capability with a failing binding followed by a succeeding one. -/
def capFailTwo : Capability := { name := "capa", bindings := [bindFail, bind0] }

/-- Capability restricted to `kube-system`, with one binding matching the
example request (whose namespace is `default`). -/
def capNsRestricted : Capability :=
  { name := "capb", namespaces := ["kube-system"], bindings := [bind0] }

/-- Capability whose first binding is skipped and whose second one runs. -/
def capSkipRun : Capability := { name := "capd", bindings := [bindSkip, bind0] }

/-- Capability whose only binding is skipped. -/
def capSkipOnly : Capability := { name := "capz", bindings := [bindSkip] }

/-- Capability whose first binding partially mutates and throws, and whose
second one mutates and succeeds. -/
def capPartialMut : Capability := { name := "cape", bindings := [bindPartial, bindMut] }

/-- Placeholder result for `Option.getD`. -/
def dfltProc : ProcResult :=
  { response := { uid := "", allowed := false }, steps := [], raw := .null }

/-- Diff function that always fails, for exercising the uncaught diff-failure
path. -/
def errDiff : Json → Json → Except String (List PatchOp) :=
  fun _ _ => .error "diff failed"

/-- Number of bindings that ran and threw in a trace. -/
def countFailed (steps : List Step) : Nat :=
  steps.countP (fun s => s.outcome == Outcome.failed)


set_option autoImplicit false

theorem getF_setF_self (fs : List (String × Json)) (k : String) (v : Json) :
    getF (setF fs k v) k = some v := by
  induction fs with
  | nil => simp [setF, getF]
  | cons kv rest ih =>
    obtain ⟨k1, w⟩ := kv
    by_cases h : k1 = k
    · subst h; simp [setF, getF]
    · simp [setF, getF, h, ih]

theorem getF_setF_ne (fs : List (String × Json)) (k k1 : String) (v : Json)
    (h : k1 ≠ k) : getF (setF fs k v) k1 = getF fs k1 := by
  have hne : ¬ k = k1 := fun hh => h hh.symm
  induction fs with
  | nil => simp [setF, getF, hne]
  | cons kv rest ih =>
    obtain ⟨k2, w⟩ := kv
    by_cases h2 : k2 = k
    · subst h2
      simp [setF, getF, hne]
    · simp [setF, getF, h2, ih]

theorem setF_self (fs : List (String × Json)) (k : String) (v : Json)
    (h : getF fs k = some v) : setF fs k v = fs := by
  induction fs with
  | nil => simp [getF] at h
  | cons kv rest ih =>
    obtain ⟨k2, w⟩ := kv
    by_cases h2 : k2 = k
    · subst h2
      simp [getF] at h
      simp [setF, h]
    · simp only [getF, if_neg h2] at h
      simp [setF, h2, ih h]

theorem setF_setF (fs : List (String × Json)) (k : String) (v w : Json) :
    setF (setF fs k v) k w = setF fs k w := by
  induction fs with
  | nil => simp [setF]
  | cons kv rest ih =>
    obtain ⟨k2, u⟩ := kv
    by_cases h2 : k2 = k
    · subst h2; simp [setF]
    · simp [setF, h2, ih]

theorem setF_absent (fs : List (String × Json)) (k : String) (v : Json)
    (h : getF fs k = none) : setF fs k v = fs ++ [(k, v)] := by
  induction fs with
  | nil => simp [setF]
  | cons kv rest ih =>
    obtain ⟨k2, u⟩ := kv
    by_cases h2 : k2 = k
    · subst h2; simp [getF] at h
    · simp only [getF, if_neg h2] at h
      simp [setF, h2, ih h]

theorem getF_delF_ne (fs : List (String × Json)) (k k1 : String)
    (h : k1 ≠ k) : getF (delF fs k) k1 = getF fs k1 := by
  have hne : ¬ k = k1 := fun hh => h hh.symm
  induction fs with
  | nil => simp [delF]
  | cons kv rest ih =>
    obtain ⟨k2, w⟩ := kv
    by_cases h2 : k2 = k
    · subst h2
      simp [delF, getF, hne]
    · simp [delF, getF, h2, ih]

theorem getF_delF_self (fs : List (String × Json)) (k : String)
    (h : keysOk fs = true) : getF (delF fs k) k = none := by
  induction fs with
  | nil => simp [delF, getF]
  | cons kv rest ih =>
    obtain ⟨k2, w⟩ := kv
    simp only [keysOk, Bool.and_eq_true, Option.isNone_iff_eq_none] at h
    by_cases h2 : k2 = k
    · subst h2
      simpa [delF] using h.1
    · simp [delF, h2, getF, ih h.2]

theorem getF_delF_none (fs : List (String × Json)) (k k1 : String)
    (h : getF fs k1 = none) : getF (delF fs k) k1 = none := by
  induction fs with
  | nil => simp [delF, getF]
  | cons kv rest ih =>
    obtain ⟨k2, w⟩ := kv
    by_cases h3 : k2 = k1
    · simp [getF, h3] at h
    · simp only [getF, if_neg h3] at h
      by_cases h2 : k2 = k
      · simp [delF, h2, h]
      · simp [delF, h2, getF, h3, ih h]

theorem getF_append (gs hs : List (String × Json)) (k : String) :
    getF (gs ++ hs) k =
      (match getF gs k with
       | some v => some v
       | none => getF hs k) := by
  induction gs with
  | nil => simp [getF]
  | cons kv rest ih =>
    obtain ⟨k2, w⟩ := kv
    by_cases h2 : k2 = k
    · simp [getF, h2]
    · simp [getF, h2, ih]

theorem getF_isSome_of_mem (fs : List (String × Json)) (k : String) (v : Json)
    (h : (k, v) ∈ fs) : (getF fs k).isSome = true := by
  induction fs with
  | nil => simp at h
  | cons kv rest ih =>
    obtain ⟨k2, w⟩ := kv
    rcases List.mem_cons.mp h with h1 | h1
    · rw [Prod.mk.injEq] at h1
      obtain ⟨rfl, rfl⟩ := h1
      simp [getF]
    · by_cases h2 : k2 = k
      · simp [getF, h2]
      · simp [getF, h2, ih h1]

theorem getF_mem (fs : List (String × Json)) (k : String) (v : Json)
    (h : getF fs k = some v) : (k, v) ∈ fs := by
  induction fs with
  | nil => simp [getF] at h
  | cons kv rest ih =>
    obtain ⟨k2, w⟩ := kv
    by_cases h2 : k2 = k
    · subst h2
      simp [getF] at h
      simp [h]
    · simp only [getF, if_neg h2] at h
      exact List.mem_cons_of_mem _ (ih h)

theorem getF_of_mem_keysOk (fs : List (String × Json)) (k : String) (v : Json)
    (hnd : keysOk fs = true) (h : (k, v) ∈ fs) : getF fs k = some v := by
  induction fs with
  | nil => simp at h
  | cons kv rest ih =>
    obtain ⟨k2, w⟩ := kv
    simp only [keysOk, Bool.and_eq_true, Option.isNone_iff_eq_none] at hnd
    rcases List.mem_cons.mp h with h1 | h1
    · rw [Prod.mk.injEq] at h1
      obtain ⟨rfl, rfl⟩ := h1
      simp [getF]
    · by_cases h2 : k2 = k
      · subst h2
        have hs := getF_isSome_of_mem rest k2 v h1
        rw [hnd.1] at hs
        simp at hs
      · simp [getF, h2, ih hnd.2 h1]

theorem keysOk_setF (fs : List (String × Json)) (k : String) (v : Json)
    (h : keysOk fs = true) : keysOk (setF fs k v) = true := by
  induction fs with
  | nil => simp [setF, keysOk, getF]
  | cons kv rest ih =>
    obtain ⟨k2, w⟩ := kv
    simp only [keysOk, Bool.and_eq_true, Option.isNone_iff_eq_none] at h
    by_cases h2 : k2 = k
    · subst h2
      simp [setF, keysOk, h.1, h.2]
    · simp only [setF, if_neg h2, keysOk, Bool.and_eq_true, Option.isNone_iff_eq_none]
      exact ⟨by rw [getF_setF_ne rest k k2 v h2, h.1], ih h.2⟩

theorem keysOk_delF (fs : List (String × Json)) (k : String)
    (h : keysOk fs = true) : keysOk (delF fs k) = true := by
  induction fs with
  | nil => simp [delF, keysOk]
  | cons kv rest ih =>
    obtain ⟨k2, w⟩ := kv
    simp only [keysOk, Bool.and_eq_true, Option.isNone_iff_eq_none] at h
    by_cases h2 : k2 = k
    · simp [delF, h2, h.2]
    · simp only [delF, if_neg h2, keysOk, Bool.and_eq_true, Option.isNone_iff_eq_none]
      exact ⟨getF_delF_none rest k k2 h.1, ih h.2⟩

theorem wfFields_keysOk (fs : List (String × Json)) (h : Json.wfFields fs = true) :
    keysOk fs = true := by
  induction fs with
  | nil => rfl
  | cons kv rest ih =>
    obtain ⟨k, v⟩ := kv
    simp only [Json.wfFields, Bool.and_eq_true] at h
    simp only [keysOk, Bool.and_eq_true]
    exact ⟨h.1.1, ih h.2⟩

theorem wf_of_mem_fields (fs : List (String × Json)) (k : String) (v : Json)
    (hw : Json.wfFields fs = true) (h : (k, v) ∈ fs) : Json.wf v = true := by
  induction fs with
  | nil => simp at h
  | cons kv rest ih =>
    obtain ⟨k2, w⟩ := kv
    simp only [Json.wfFields, Bool.and_eq_true] at hw
    rcases List.mem_cons.mp h with h1 | h1
    · rw [Prod.mk.injEq] at h1
      obtain ⟨rfl, rfl⟩ := h1
      exact hw.1.2
    · exact ih hw.2 h1

theorem wf_of_getF (fs : List (String × Json)) (k : String) (v : Json)
    (hw : Json.wfFields fs = true) (h : getF fs k = some v) : Json.wf v = true :=
  wf_of_mem_fields fs k v hw (getF_mem fs k v h)

theorem wf_of_mem_list (xs : List Json) (x : Json)
    (hw : Json.wfList xs = true) (h : x ∈ xs) : Json.wf x = true := by
  induction xs with
  | nil => simp at h
  | cons y rest ih =>
    simp only [Json.wfList, Bool.and_eq_true] at hw
    rcases List.mem_cons.mp h with h1 | h1
    · exact h1 ▸ hw.1
    · exact ih hw.2 h1

theorem wfFields_setF (fs : List (String × Json)) (k : String) (v : Json)
    (hw : Json.wfFields fs = true) (hv : Json.wf v = true) :
    Json.wfFields (setF fs k v) = true := by
  induction fs with
  | nil => simp [setF, Json.wfFields, getF, hv]
  | cons kv rest ih =>
    obtain ⟨k2, w⟩ := kv
    simp only [Json.wfFields, Bool.and_eq_true] at hw
    by_cases h2 : k2 = k
    · subst h2
      simp [setF, Json.wfFields, hw.1.1, hv, hw.2]
    · simp only [setF, if_neg h2, Json.wfFields, Bool.and_eq_true]
      refine ⟨⟨?_, hw.1.2⟩, ih hw.2⟩
      rw [getF_setF_ne rest k k2 v h2]
      exact hw.1.1

theorem Json.inductionOn (P : Json → Prop)
    (hnull : P .null) (hbool : ∀ b, P (.bool b)) (hnum : ∀ n, P (.num n))
    (hstr : ∀ s, P (.str s))
    (harr : ∀ xs, (∀ x ∈ xs, P x) → P (.arr xs))
    (hobj : ∀ fs, (∀ kv ∈ fs, P kv.2) → P (.obj fs)) : ∀ j, P j
  | .null => hnull
  | .bool b => hbool b
  | .num n => hnum n
  | .str s => hstr s
  | .arr xs => harr xs (fun x hx => Json.inductionOn P hnull hbool hnum hstr harr hobj x)
  | .obj fs => hobj fs (fun kv hkv => Json.inductionOn P hnull hbool hnum hstr harr hobj kv.2)
termination_by j => sizeOf j
decreasing_by
  · have h1 := List.sizeOf_lt_of_mem hx
    simp only [Json.arr.sizeOf_spec]
    omega
  · have h1 := List.sizeOf_lt_of_mem hkv
    have h2 : sizeOf kv.2 < sizeOf kv := by
      obtain ⟨a, b⟩ := kv
      simp
    simp only [Json.obj.sizeOf_spec]
    omega

theorem Json.eqvList_self (xs : List Json) (h : ∀ x ∈ xs, Json.eqv x x = true) :
    Json.eqvList xs xs = true := by
  induction xs with
  | nil => rfl
  | cons x rest ih =>
    simp only [Json.eqvList, Bool.and_eq_true]
    exact ⟨h x (by simp), ih (fun y hy => h y (by simp [hy]))⟩

theorem Json.eqvList_of_zip (xs : List Json) : ∀ ys : List Json, xs.length = ys.length →
    (∀ p ∈ xs.zip ys, Json.eqv p.1 p.2 = true) → Json.eqvList xs ys = true := by
  induction xs with
  | nil =>
    intro ys hl _
    cases ys with
    | nil => rfl
    | cons y ys => simp at hl
  | cons x xs ih =>
    intro ys hl h
    cases ys with
    | nil => simp at hl
    | cons y ys =>
      simp only [Json.eqvList, Bool.and_eq_true]
      refine ⟨h (x, y) (by simp), ih ys (by simpa using hl) (fun p hp => h p (by simp [hp]))⟩

theorem Json.eqvList_append (as : List Json) : ∀ (cs bs ds : List Json),
    Json.eqvList as cs = true → Json.eqvList bs ds = true →
    Json.eqvList (as ++ bs) (cs ++ ds) = true := by
  induction as with
  | nil =>
    intro cs bs ds h1 h2
    cases cs with
    | nil => simpa using h2
    | cons c cs => simp [Json.eqvList] at h1
  | cons a as ih =>
    intro cs bs ds h1 h2
    cases cs with
    | nil => simp [Json.eqvList] at h1
    | cons c cs =>
      simp only [Json.eqvList, Bool.and_eq_true] at h1
      simp only [List.cons_append, Json.eqvList, Bool.and_eq_true]
      exact ⟨h1.1, ih cs bs ds h1.2 h2⟩

theorem Json.eqvFields_of_forall (xs n : List (String × Json))
    (h : ∀ kv ∈ xs, ∃ w, getF n kv.1 = some w ∧ Json.eqv kv.2 w = true) :
    Json.eqvFields xs n = true := by
  induction xs with
  | nil => rfl
  | cons kv rest ih =>
    obtain ⟨k, v⟩ := kv
    obtain ⟨w, hget, he⟩ := h (k, v) (by simp)
    simp only [Json.eqvFields, Bool.and_eq_true]
    constructor
    · simp [hget, he]
    · exact ih (fun p hp => h p (by simp [hp]))

theorem Json.eqvFields_append (xs ys n : List (String × Json))
    (h1 : Json.eqvFields xs n = true) (h2 : Json.eqvFields ys n = true) :
    Json.eqvFields (xs ++ ys) n = true := by
  induction xs with
  | nil => simpa using h2
  | cons kv rest ih =>
    obtain ⟨k, v⟩ := kv
    simp only [Json.eqvFields, Bool.and_eq_true] at h1
    simp only [List.cons_append, Json.eqvFields, Bool.and_eq_true]
    exact ⟨h1.1, ih h1.2⟩

theorem Json.eqv_refl (a : Json) : Json.wf a = true → Json.eqv a a = true := by
  refine Json.inductionOn (fun a => Json.wf a = true → Json.eqv a a = true)
    ?_ ?_ ?_ ?_ ?_ ?_ a
  · intro _; rfl
  · intro b _; simp [Json.eqv, Json.beq]
  · intro n _; simp [Json.eqv, Json.beq]
  · intro s _; simp [Json.eqv, Json.beq]
  · intro xs ihm hw
    simp only [Json.wf] at hw
    simp only [Json.eqv]
    exact Json.eqvList_self xs (fun x hx => ihm x hx (wf_of_mem_list xs x hw hx))
  · intro fs ihm hw
    simp only [Json.wf] at hw
    simp only [Json.eqv, Bool.and_eq_true]
    constructor
    · refine Json.eqvFields_of_forall fs fs (fun kv hkv => ⟨kv.2, ?_, ?_⟩)
      · exact getF_of_mem_keysOk fs kv.1 kv.2 (wfFields_keysOk fs hw) (by simpa using hkv)
      · exact ihm kv hkv (wf_of_mem_fields fs kv.1 kv.2 hw (by simpa using hkv))
    · rw [List.all_eq_true]
      intro p hp
      exact getF_isSome_of_mem fs p.1 p.2 (by simpa using hp)

theorem list_set_self {α : Type} (xs : List α) (i : Nat) (v : α)
    (h : xs[i]? = some v) : xs.set i v = xs := by
  induction xs generalizing i with
  | nil => simp at h
  | cons x rest ih =>
    cases i with
    | zero =>
      simp only [List.getElem?_cons_zero, Option.some.injEq] at h
      simp [h]
    | succ n =>
      simp only [List.getElem?_cons_succ] at h
      simp [ih n h]

theorem Json.applyPatch_nil (d : Json) : Json.applyPatch [] d = some d := rfl

theorem Json.applyPatch_go_none (ops : List PatchOp) :
    ops.foldl (fun acc op => acc.bind (Json.applyOp op)) none = none := by
  induction ops with
  | nil => rfl
  | cons op rest ih => simpa [Option.bind] using ih

theorem Json.applyPatch_cons (op : PatchOp) (ops : List PatchOp) (d : Json) :
    Json.applyPatch (op :: ops) d =
      (match Json.applyOp op d with
       | some d2 => Json.applyPatch ops d2
       | none => none) := by
  cases h : Json.applyOp op d with
  | none => simpa [Json.applyPatch, Option.bind, h] using Json.applyPatch_go_none ops
  | some d2 => simp [Json.applyPatch, Option.bind, h]

theorem Json.applyPatch_append (p q : List PatchOp) (d : Json) :
    Json.applyPatch (p ++ q) d =
      (match Json.applyPatch p d with
       | some d2 => Json.applyPatch q d2
       | none => none) := by
  induction p generalizing d with
  | nil => simp [Json.applyPatch_nil]
  | cons op p ih =>
    rw [List.cons_append, Json.applyPatch_cons, Json.applyPatch_cons]
    cases h : Json.applyOp op d with
    | none => rfl
    | some d2 => simp [ih]

theorem Json.applyInner_key (act : Tok → Json → Option Json) (t : Tok) (rest : List Tok)
    (fs : List (String × Json)) (k : String) (v c2 : Json)
    (hget : getF fs k = some v) (h : Json.applyInner act t rest v = some c2) :
    Json.applyInner act (.key k) (t :: rest) (.obj fs) = some (.obj (setF fs k c2)) := by
  simp [Json.applyInner, hget, h]

theorem Json.applyInner_idx (act : Tok → Json → Option Json) (t : Tok) (rest : List Tok)
    (xs : List Json) (i : Nat) (v c2 : Json)
    (hget : xs[i]? = some v) (h : Json.applyInner act t rest v = some c2) :
    Json.applyInner act (.idx i) (t :: rest) (.arr xs) = some (.arr (xs.set i c2)) := by
  simp [Json.applyInner, hget, h]

theorem Json.applyOp_prefix_key (op : PatchOp) (v v2 : Json)
    (fs : List (String × Json)) (k : String)
    (hget : getF fs k = some v) (hop : Json.applyOp op v = some v2) :
    Json.applyOp (prefixOp (.key k) op) (.obj fs) = some (.obj (setF fs k v2)) := by
  cases op with
  | add p w =>
    cases p with
    | nil =>
      simp only [Json.applyOp, Option.some.injEq] at hop
      subst hop
      simp [prefixOp, Json.applyOp, Json.applyInner, Json.addAct]
    | cons t rest =>
      have h2 : Json.applyInner (Json.addAct w) t rest v = some v2 := hop
      simp only [prefixOp, Json.applyOp]
      exact Json.applyInner_key _ t rest fs k v v2 hget h2
  | remove p =>
    cases p with
    | nil => simp [Json.applyOp] at hop
    | cons t rest =>
      have h2 : Json.applyInner Json.removeAct t rest v = some v2 := hop
      simp only [prefixOp, Json.applyOp]
      exact Json.applyInner_key _ t rest fs k v v2 hget h2
  | replace p w =>
    cases p with
    | nil =>
      simp only [Json.applyOp, Option.some.injEq] at hop
      subst hop
      simp [prefixOp, Json.applyOp, Json.applyInner, Json.replaceAct, hget]
    | cons t rest =>
      have h2 : Json.applyInner (Json.replaceAct w) t rest v = some v2 := hop
      simp only [prefixOp, Json.applyOp]
      exact Json.applyInner_key _ t rest fs k v v2 hget h2

theorem Json.applyOp_prefix_idx (op : PatchOp) (v v2 : Json)
    (xs : List Json) (i : Nat)
    (hget : xs[i]? = some v) (hop : Json.applyOp op v = some v2)
    (hroot : ∀ w : Json, op ≠ .add [] w) :
    Json.applyOp (prefixOp (.idx i) op) (.arr xs) = some (.arr (xs.set i v2)) := by
  have hlt : i < xs.length := (List.getElem?_eq_some.mp hget).1
  cases op with
  | add p w =>
    cases p with
    | nil => exact absurd rfl (hroot w)
    | cons t rest =>
      have h2 : Json.applyInner (Json.addAct w) t rest v = some v2 := hop
      simp only [prefixOp, Json.applyOp]
      exact Json.applyInner_idx _ t rest xs i v v2 hget h2
  | remove p =>
    cases p with
    | nil => simp [Json.applyOp] at hop
    | cons t rest =>
      have h2 : Json.applyInner Json.removeAct t rest v = some v2 := hop
      simp only [prefixOp, Json.applyOp]
      exact Json.applyInner_idx _ t rest xs i v v2 hget h2
  | replace p w =>
    cases p with
    | nil =>
      simp only [Json.applyOp, Option.some.injEq] at hop
      subst hop
      simp [prefixOp, Json.applyOp, Json.applyInner, Json.replaceAct, hlt]
    | cons t rest =>
      have h2 : Json.applyInner (Json.replaceAct w) t rest v = some v2 := hop
      simp only [prefixOp, Json.applyOp]
      exact Json.applyInner_idx _ t rest xs i v v2 hget h2

theorem Json.applyPatch_prefix_key (ops : List PatchOp) : ∀ (v v2 : Json)
    (fs : List (String × Json)) (k : String),
    getF fs k = some v → Json.applyPatch ops v = some v2 →
    Json.applyPatch (ops.map (prefixOp (.key k))) (.obj fs) = some (.obj (setF fs k v2)) := by
  induction ops with
  | nil =>
    intro v v2 fs k hget hops
    simp only [Json.applyPatch_nil, Option.some.injEq] at hops
    subst hops
    simp [Json.applyPatch_nil, setF_self fs k v hget]
  | cons op ops ih =>
    intro v v2 fs k hget hops
    rw [Json.applyPatch_cons] at hops
    cases h1 : Json.applyOp op v with
    | none => rw [h1] at hops; simp at hops
    | some v1 =>
      rw [h1] at hops
      simp only at hops
      rw [List.map_cons, Json.applyPatch_cons,
        Json.applyOp_prefix_key op v v1 fs k hget h1]
      have := ih v1 v2 (setF fs k v1) k (getF_setF_self fs k v1) hops
      rw [setF_setF fs k v1 v2] at this
      simpa using this

theorem Json.applyPatch_prefix_idx (ops : List PatchOp) : ∀ (v v2 : Json)
    (xs : List Json) (i : Nat),
    xs[i]? = some v → Json.applyPatch ops v = some v2 →
    (∀ op ∈ ops, ∀ w : Json, op ≠ .add [] w) →
    Json.applyPatch (ops.map (prefixOp (.idx i))) (.arr xs) = some (.arr (xs.set i v2)) := by
  induction ops with
  | nil =>
    intro v v2 xs i hget hops _
    simp only [Json.applyPatch_nil, Option.some.injEq] at hops
    subst hops
    simp [Json.applyPatch_nil, list_set_self xs i v hget]
  | cons op ops ih =>
    intro v v2 xs i hget hops hroot
    have hlt : i < xs.length := (List.getElem?_eq_some.mp hget).1
    rw [Json.applyPatch_cons] at hops
    cases h1 : Json.applyOp op v with
    | none => rw [h1] at hops; simp at hops
    | some v1 =>
      rw [h1] at hops
      simp only at hops
      rw [List.map_cons, Json.applyPatch_cons,
        Json.applyOp_prefix_idx op v v1 xs i hget h1 (hroot op (by simp))]
      have := ih v1 v2 (xs.set i v1) i (List.getElem?_set_self (by simpa using hlt))
        hops (fun o ho w => hroot o (by simp [ho]) w)
      rw [List.set_set] at this
      simpa using this

theorem prefixOp_ne_rootAdd (t : Tok) (op : PatchOp) (w : Json) :
    prefixOp t op ≠ .add [] w := by
  cases op <;> simp [prefixOp]

theorem diffFields_no_rootAdd (todo : List (String × Json)) :
    ∀ (n : List (String × Json)), ∀ op ∈ Json.diffFields todo n, ∀ w : Json,
    op ≠ .add [] w := by
  induction todo with
  | nil => intro n op hop; simp [Json.diffFields] at hop
  | cons kv rest ih =>
    intro n op hop w
    obtain ⟨k, ov⟩ := kv
    simp only [Json.diffFields] at hop
    rcases List.mem_append.mp hop with h1 | h1
    · cases hn : getF n k with
      | some nv =>
        rw [hn] at h1
        obtain ⟨o2, _, rfl⟩ := List.mem_map.mp h1
        exact prefixOp_ne_rootAdd _ o2 w
      | none =>
        rw [hn] at h1
        simp at h1
        simp [h1]
    · exact ih n op h1 w

theorem diffArrVals_no_rootAdd (os : List Json) : ∀ (i : Nat) (ns : List Json),
    ∀ op ∈ Json.diffArrVals i os ns, ∀ w : Json, op ≠ .add [] w := by
  induction os with
  | nil => intro i ns op hop; simp [Json.diffArrVals] at hop
  | cons ov os ih =>
    intro i ns op hop w
    cases ns with
    | nil => simp [Json.diffArrVals] at hop
    | cons nv ns =>
      simp only [Json.diffArrVals] at hop
      rcases List.mem_append.mp hop with h1 | h1
      · obtain ⟨o2, _, rfl⟩ := List.mem_map.mp h1
        exact prefixOp_ne_rootAdd _ o2 w
      · exact ih (i + 1) ns op h1 w

theorem removeTail_no_rootAdd (ol : Nat) : ∀ (nl : Nat),
    ∀ op ∈ removeTail ol nl, ∀ w : Json, op ≠ .add [] w := by
  induction ol with
  | zero => intro nl op hop; simp [removeTail] at hop
  | succ m ih =>
    intro nl op hop w
    simp only [removeTail] at hop
    by_cases h : nl ≤ m
    · rw [if_pos h] at hop
      rcases List.mem_cons.mp hop with h1 | h1
      · simp [h1]
      · exact ih nl op h1 w
    · rw [if_neg h] at hop
      simp at hop

theorem addTail_no_rootAdd (vs : List Json) : ∀ (i : Nat),
    ∀ op ∈ addTail i vs, ∀ w : Json, op ≠ .add [] w := by
  induction vs with
  | nil => intro i op hop; simp [addTail] at hop
  | cons v vs ih =>
    intro i op hop w
    simp only [addTail] at hop
    rcases List.mem_cons.mp hop with h1 | h1
    · simp [h1]
    · exact ih (i + 1) op h1 w

theorem diffAdds_no_rootAdd (o n : List (String × Json)) :
    ∀ op ∈ diffAdds o n, ∀ w : Json, op ≠ .add [] w := by
  intro op hop w
  obtain ⟨p, _, rfl⟩ := List.mem_map.mp hop
  simp

theorem diff_spec (a b : Json) :
    (∃ o n, a = .obj o ∧ b = .obj n) ∨ (∃ o n, a = .arr o ∧ b = .arr n) ∨
      Json.diff a b = (if a = b then [] else [.replace [] b]) := by
  cases a <;> cases b <;>
    first
      | (left; exact ⟨_, _, rfl, rfl⟩)
      | (right; left; exact ⟨_, _, rfl, rfl⟩)
      | (right; right; rfl)

theorem diff_no_rootAdd (a b : Json) : ∀ op ∈ Json.diff a b, ∀ w : Json,
    op ≠ .add [] w := by
  intro op hop w
  rcases diff_spec a b with ⟨o, n, rfl, rfl⟩ | ⟨o, n, rfl, rfl⟩ | hbase
  · simp only [Json.diff] at hop
    rcases List.mem_append.mp hop with h1 | h1
    · exact diffFields_no_rootAdd o n op h1 w
    · exact diffAdds_no_rootAdd o n op h1 w
  · simp only [Json.diff] at hop
    rcases List.mem_append.mp hop with h1 | h1
    · rcases List.mem_append.mp h1 with h2 | h2
      · exact removeTail_no_rootAdd o.length n.length op h2 w
      · exact diffArrVals_no_rootAdd o 0 n op h2 w
    · exact addTail_no_rootAdd (n.drop o.length) o.length op h1 w
  · rw [hbase] at hop
    by_cases h : a = b
    · simp [h] at hop
    · rw [if_neg h] at hop
      simp at hop
      simp [hop]

theorem list_set_append_length {α : Type} (pre : List α) (y c : α) (ys : List α) :
    (pre ++ y :: ys).set pre.length c = (pre ++ [c]) ++ ys := by
  induction pre with
  | nil => simp
  | cons x pre ih => simp [List.set, ih]

theorem Json.applyPatch_removeTail : ∀ (ol : Nat) (xs : List Json), xs.length = ol →
    ∀ (nl : Nat), Json.applyPatch (removeTail ol nl) (.arr xs) = some (.arr (xs.take nl)) := by
  intro ol
  induction ol with
  | zero =>
    intro xs hl nl
    have hx : xs = [] := List.length_eq_zero.mp hl
    subst hx
    simp [removeTail, Json.applyPatch_nil]
  | succ m ih =>
    intro xs hl nl
    by_cases h : nl ≤ m
    · simp only [removeTail, if_pos h]
      rw [Json.applyPatch_cons]
      have hm : m < xs.length := by omega
      have h1 : Json.applyOp (.remove [.idx m]) (.arr xs) = some (.arr (xs.eraseIdx m)) := by
        simp [Json.applyOp, Json.applyInner, Json.removeAct, hm]
      rw [h1]
      show Json.applyPatch (removeTail m nl) (.arr (xs.eraseIdx m)) = some (.arr (xs.take nl))
      have h2 : xs.eraseIdx m = xs.take m := by
        rw [List.eraseIdx_eq_take_drop_succ]
        have h3 : xs.drop (m + 1) = [] := List.drop_eq_nil_of_le (by omega)
        simp [h3]
      rw [h2, ih (xs.take m) (by simp [List.length_take]; omega) nl, List.take_take]
      have h4 : min nl m = nl := Nat.min_eq_left h
      rw [h4]
    · simp only [removeTail, if_neg h]
      rw [Json.applyPatch_nil]
      have h5 : xs.take nl = xs := List.take_of_length_le (by omega)
      rw [h5]

theorem Json.applyPatch_addTail : ∀ (vs ws : List Json),
    Json.applyPatch (addTail ws.length vs) (.arr ws) = some (.arr (ws ++ vs)) := by
  intro vs
  induction vs with
  | nil => intro ws; simp [addTail, Json.applyPatch_nil]
  | cons v vs ih =>
    intro ws
    simp only [addTail]
    rw [Json.applyPatch_cons]
    have h1 : Json.applyOp (.add [.idx ws.length] v) (.arr ws) = some (.arr (ws ++ [v])) := by
      simp [Json.applyOp, Json.applyInner, Json.addAct, List.insertIdx_length_self]
    rw [h1]
    show Json.applyPatch (addTail (ws.length + 1) vs) (.arr (ws ++ [v])) = some (.arr (ws ++ v :: vs))
    have h2 : ws.length + 1 = (ws ++ [v]).length := by simp
    rw [h2, ih (ws ++ [v])]
    simp

theorem Json.diffArrVals_take : ∀ (os ns : List Json) (i : Nat),
    Json.diffArrVals i (os.take ns.length) ns = Json.diffArrVals i os ns := by
  intro os
  induction os with
  | nil => intro ns i; simp
  | cons ov os ih =>
    intro ns i
    cases ns with
    | nil => simp [Json.diffArrVals]
    | cons nv ns =>
      simp only [List.length_cons, List.take_succ_cons, Json.diffArrVals]
      rw [ih ns (i + 1)]

theorem Json.applyPatch_diffArrVals : ∀ (ys ns pre : List Json),
    (∀ p ∈ ys.zip ns, ∃ c, Json.applyPatch (Json.diff p.1 p.2) p.1 = some c ∧
      Json.eqv c p.2 = true) →
    ys.length ≤ ns.length →
    ∃ cs, Json.applyPatch (Json.diffArrVals pre.length ys ns) (.arr (pre ++ ys)) =
        some (.arr (pre ++ cs)) ∧
      cs.length = ys.length ∧ (∀ p ∈ cs.zip ns, Json.eqv p.1 p.2 = true) := by
  intro ys
  induction ys with
  | nil =>
    intro ns pre _ _
    refine ⟨[], ?_, rfl, by simp⟩
    simp [Json.diffArrVals, Json.applyPatch_nil]
  | cons y ys ih =>
    intro ns pre h hl
    cases ns with
    | nil => simp at hl
    | cons nv ns =>
      obtain ⟨c, hc, he⟩ := h (y, nv) (by simp)
      simp only [Json.diffArrVals]
      rw [Json.applyPatch_append]
      have hget : (pre ++ y :: ys)[pre.length]? = some y := by
        rw [List.getElem?_append_right (le_refl pre.length)]
        simp
      have hstep := Json.applyPatch_prefix_idx (Json.diff y nv) y c (pre ++ y :: ys)
        pre.length hget hc (fun op hop w => diff_no_rootAdd y nv op hop w)
      rw [hstep, list_set_append_length pre y c ys]
      obtain ⟨cs, hcs, hlen, hcz⟩ := ih ns (pre ++ [c])
        (fun p hp => h p (by simp [hp]))
        (by simp at hl; omega)
      refine ⟨c :: cs, ?_, by simp [hlen], ?_⟩
      · show Json.applyPatch (Json.diffArrVals (pre.length + 1) ys ns)
          (.arr ((pre ++ [c]) ++ ys)) = some (.arr (pre ++ c :: cs))
        have h2 : pre.length + 1 = (pre ++ [c]).length := by simp
        rw [h2, hcs]
        simp
      · intro p hp
        simp only [List.zip_cons_cons, List.mem_cons] at hp
        rcases hp with h1 | h1
        · rw [h1]; exact he
        · exact hcz p h1

theorem Json.applyPatch_diffFields : ∀ (todo fs n : List (String × Json)),
    (∀ kv ∈ todo, ∀ nv : Json, getF n kv.1 = some nv →
      ∃ c, Json.applyPatch (Json.diff kv.2 nv) kv.2 = some c ∧ Json.eqv c nv = true) →
    (∀ kv ∈ todo, getF fs kv.1 = some kv.2) →
    keysOk todo = true → keysOk fs = true →
    ∃ fs2, Json.applyPatch (Json.diffFields todo n) (.obj fs) = some (.obj fs2) ∧
      keysOk fs2 = true ∧
      (∀ key : String, getF fs key = none → getF fs2 key = none) ∧
      (∀ key : String, (∀ kv ∈ todo, kv.1 ≠ key) → getF fs2 key = getF fs key) ∧
      (∀ kv ∈ todo, getF n kv.1 = none → getF fs2 kv.1 = none) ∧
      (∀ kv ∈ todo, ∀ nv : Json, getF n kv.1 = some nv →
        ∃ c, getF fs2 kv.1 = some c ∧ Json.eqv c nv = true) := by
  intro todo
  induction todo with
  | nil =>
    intro fs n _ _ _ hfsOk
    exact ⟨fs, by simp [Json.diffFields, Json.applyPatch_nil], hfsOk,
      fun _ h => h, fun _ _ => rfl, by simp, by simp⟩
  | cons kv0 rest ih =>
    intro fs n H Hfs HtOk HfsOk
    obtain ⟨k, ov⟩ := kv0
    simp only [keysOk, Bool.and_eq_true, Option.isNone_iff_eq_none] at HtOk
    have hkrest : ∀ kv ∈ rest, kv.1 ≠ k := by
      intro kv hkv heq
      have hh := getF_isSome_of_mem rest kv.1 kv.2 hkv
      rw [heq, HtOk.1] at hh
      simp at hh
    have hfk : getF fs k = some ov := Hfs (k, ov) (by simp)
    simp only [Json.diffFields]
    cases hn : getF n k with
    | some nv =>
      obtain ⟨c, hc, he⟩ := H (k, ov) (by simp) nv hn
      rw [Json.applyPatch_append,
        Json.applyPatch_prefix_key (Json.diff ov nv) ov c fs k hfk hc]
      obtain ⟨fs2, hfs2, hOk2, hnone2, hframe2, hrem2, hupd2⟩ := ih (setF fs k c) n
        (fun kv hkv nv2 h2 => H kv (by simp [hkv]) nv2 h2)
        (fun kv hkv => by
          rw [getF_setF_ne fs k kv.1 c (hkrest kv hkv)]
          exact Hfs kv (by simp [hkv]))
        HtOk.2 (keysOk_setF fs k c HfsOk)
      refine ⟨fs2, ?_, hOk2, ?_, ?_, ?_, ?_⟩
      · show Json.applyPatch (Json.diffFields rest n) (.obj (setF fs k c)) = some (.obj fs2)
        exact hfs2
      · intro key hkey
        have hkne : key ≠ k := by
          intro heq
          rw [heq, hfk] at hkey
          cases hkey
        refine hnone2 key ?_
        rw [getF_setF_ne fs k key c hkne]
        exact hkey
      · intro key hall
        rw [hframe2 key (fun kv hkv => hall kv (by simp [hkv]))]
        exact getF_setF_ne fs k key c (fun heq => hall (k, ov) (by simp) heq.symm)
      · intro kv hkv hnone
        rcases List.mem_cons.mp hkv with h1 | h1
        · subst h1
          rw [hn] at hnone
          cases hnone
        · exact hrem2 kv h1 hnone
      · intro kv hkv nv2 h2
        rcases List.mem_cons.mp hkv with h1 | h1
        · subst h1
          rw [hn] at h2
          obtain rfl := Option.some.inj h2
          refine ⟨c, ?_, he⟩
          rw [hframe2 _ (fun kv2 hkv2 => hkrest kv2 hkv2)]
          exact getF_setF_self fs k c
        · exact hupd2 kv h1 nv2 h2
    | none =>
      have hleft : Json.applyPatch [PatchOp.remove [Tok.key k]] (.obj fs) =
          some (.obj (delF fs k)) := by
        rw [Json.applyPatch_cons]
        have hstep : Json.applyOp (.remove [.key k]) (.obj fs) =
            some (.obj (delF fs k)) := by
          simp [Json.applyOp, Json.applyInner, Json.removeAct, hfk]
        rw [hstep]
        rfl
      rw [Json.applyPatch_append, hleft]
      obtain ⟨fs2, hfs2, hOk2, hnone2, hframe2, hrem2, hupd2⟩ := ih (delF fs k) n
        (fun kv hkv nv2 h2 => H kv (by simp [hkv]) nv2 h2)
        (fun kv hkv => by
          rw [getF_delF_ne fs k kv.1 (hkrest kv hkv)]
          exact Hfs kv (by simp [hkv]))
        HtOk.2 (keysOk_delF fs k HfsOk)
      refine ⟨fs2, ?_, hOk2, ?_, ?_, ?_, ?_⟩
      · show Json.applyPatch (Json.diffFields rest n) (.obj (delF fs k)) = some (.obj fs2)
        exact hfs2
      · intro key hkey
        exact hnone2 key (getF_delF_none fs k key hkey)
      · intro key hall
        rw [hframe2 key (fun kv hkv => hall kv (by simp [hkv]))]
        exact getF_delF_ne fs k key (fun heq => hall (k, ov) (by simp) heq.symm)
      · intro kv hkv _
        rcases List.mem_cons.mp hkv with h1 | h1
        · subst h1
          rw [hframe2 _ (fun kv2 hkv2 => hkrest kv2 hkv2)]
          exact getF_delF_self fs k HfsOk
        · exact hrem2 kv h1 (by assumption)
      · intro kv hkv nv2 h2
        rcases List.mem_cons.mp hkv with h1 | h1
        · subst h1
          rw [hn] at h2
          cases h2
        · exact hupd2 kv h1 nv2 h2

theorem Json.applyPatch_diffAdds : ∀ (n o gs : List (String × Json)),
    (∀ p ∈ n.filter (fun p => (getF o p.1).isNone), getF gs p.1 = none) →
    keysOk n = true →
    Json.applyPatch (diffAdds o n) (.obj gs) =
      some (.obj (gs ++ n.filter (fun p => (getF o p.1).isNone))) := by
  intro n
  induction n with
  | nil =>
    intro o gs _ _
    simp [diffAdds, Json.applyPatch_nil]
  | cons kv n ih =>
    intro o gs hdis hOk
    obtain ⟨k, v⟩ := kv
    simp only [keysOk, Bool.and_eq_true, Option.isNone_iff_eq_none] at hOk
    by_cases ho : (getF o k).isNone = true
    · have hfil : ((k, v) :: n).filter (fun p => (getF o p.1).isNone) =
          (k, v) :: n.filter (fun p => (getF o p.1).isNone) := by
        simp [List.filter_cons, ho]
      simp only [diffAdds, hfil, List.map_cons]
      rw [Json.applyPatch_cons]
      have hgk : getF gs k = none := hdis (k, v) (by rw [hfil]; simp)
      have hstep : Json.applyOp (.add [.key k] v) (.obj gs) =
          some (.obj (gs ++ [(k, v)])) := by
        simp [Json.applyOp, Json.applyInner, Json.addAct, setF_absent gs k v hgk]
      rw [hstep]
      show Json.applyPatch (diffAdds o n) (.obj (gs ++ [(k, v)])) =
        some (.obj (gs ++ (k, v) :: n.filter (fun p => (getF o p.1).isNone)))
      rw [ih o (gs ++ [(k, v)]) ?_ hOk.2]
      · simp
      · intro p hp
        rw [getF_append, hdis p (by rw [hfil]; simp [hp])]
        have hpk : p.1 ≠ k := by
          have hh := getF_isSome_of_mem n p.1 p.2 (List.mem_of_mem_filter hp)
          intro heq
          rw [heq, hOk.1] at hh
          simp at hh
        simp only [getF]
        rw [if_neg (fun heq => hpk heq.symm)]
    · have hfil : ((k, v) :: n).filter (fun p => (getF o p.1).isNone) =
          n.filter (fun p => (getF o p.1).isNone) := by
        simp [List.filter_cons, ho]
      simp only [diffAdds, hfil]
      exact ih o gs (fun p hp => hdis p (by rw [hfil]; exact hp)) hOk.2

theorem zip_take_self {α β : Type} (cs : List α) : ∀ ns : List β,
    cs.zip (ns.take cs.length) = cs.zip ns := by
  induction cs with
  | nil => intro ns; simp
  | cons c cs ih =>
    intro ns
    cases ns with
    | nil => simp
    | cons n2 ns => simp [List.zip_cons_cons, ih ns]

theorem Json.diff_apply_base (a b : Json) (hwb : Json.wf b = true)
    (heq : Json.diff a b = (if a = b then [] else [.replace [] b])) :
    ∃ c, Json.applyPatch (Json.diff a b) a = some c ∧ Json.eqv c b = true := by
  rw [heq]
  by_cases h : a = b
  · subst h
    rw [if_pos rfl]
    exact ⟨a, Json.applyPatch_nil a, Json.eqv_refl a hwb⟩
  · rw [if_neg h, Json.applyPatch_cons]
    exact ⟨b, rfl, Json.eqv_refl b hwb⟩

theorem Json.diff_apply : ∀ (a b : Json), Json.wf a = true → Json.wf b = true →
    ∃ c, Json.applyPatch (Json.diff a b) a = some c ∧ Json.eqv c b = true := by
  intro a
  refine Json.inductionOn (fun a => ∀ b : Json, Json.wf a = true → Json.wf b = true →
    ∃ c, Json.applyPatch (Json.diff a b) a = some c ∧ Json.eqv c b = true)
    ?_ ?_ ?_ ?_ ?_ ?_ a
  · intro b _ hwb
    rcases diff_spec .null b with ⟨o, n, h1, h2⟩ | ⟨o, n, h1, h2⟩ | hbase
    · simp at h1
    · simp at h1
    · exact Json.diff_apply_base .null b hwb hbase
  · intro v b _ hwb
    rcases diff_spec (.bool v) b with ⟨o, n, h1, h2⟩ | ⟨o, n, h1, h2⟩ | hbase
    · simp at h1
    · simp at h1
    · exact Json.diff_apply_base (.bool v) b hwb hbase
  · intro v b _ hwb
    rcases diff_spec (.num v) b with ⟨o, n, h1, h2⟩ | ⟨o, n, h1, h2⟩ | hbase
    · simp at h1
    · simp at h1
    · exact Json.diff_apply_base (.num v) b hwb hbase
  · intro v b _ hwb
    rcases diff_spec (.str v) b with ⟨o, n, h1, h2⟩ | ⟨o, n, h1, h2⟩ | hbase
    · simp at h1
    · simp at h1
    · exact Json.diff_apply_base (.str v) b hwb hbase
  · intro xs ihm b hwa hwb
    rcases diff_spec (.arr xs) b with ⟨o, n, h1, h2⟩ | ⟨o, n, h1, h2⟩ | hbase
    · simp at h1
    · obtain rfl : xs = o := by injection h1
      subst h2
      have hwl : Json.wfList xs = true := by simpa [Json.wf] using hwa
      have hwn : Json.wfList n = true := by simpa [Json.wf] using hwb
      have hzip : ∀ p ∈ (xs.take n.length).zip n, ∃ c,
          Json.applyPatch (Json.diff p.1 p.2) p.1 = some c ∧ Json.eqv c p.2 = true := by
        intro p hp
        have hp1 : p.1 ∈ xs := List.take_subset _ _ (List.of_mem_zip hp).1
        have hp2 : p.2 ∈ n := (List.of_mem_zip hp).2
        exact ihm p.1 hp1 p.2 (wf_of_mem_list xs p.1 hwl hp1) (wf_of_mem_list n p.2 hwn hp2)
      have hlen : (xs.take n.length).length ≤ n.length := by simp [List.length_take]
      obtain ⟨cs, hcs, hcl, hcz⟩ := Json.applyPatch_diffArrVals (xs.take n.length) n [] hzip hlen
      simp only [List.nil_append, List.length_nil] at hcs
      rw [Json.diffArrVals_take xs n 0] at hcs
      simp only [Json.diff]
      rw [List.append_assoc, Json.applyPatch_append,
        Json.applyPatch_removeTail xs.length xs rfl n.length]
      show ∃ c, Json.applyPatch
          (Json.diffArrVals 0 xs n ++ addTail xs.length (n.drop xs.length))
          (.arr (xs.take n.length)) = some c ∧ Json.eqv c (.arr n) = true
      rw [Json.applyPatch_append, hcs]
      show ∃ c, Json.applyPatch (addTail xs.length (n.drop xs.length)) (.arr cs) = some c ∧
        Json.eqv c (.arr n) = true
      by_cases hc : n.length ≤ xs.length
      · have hdrop : n.drop xs.length = [] := List.drop_eq_nil_of_le hc
        rw [hdrop]
        refine ⟨.arr cs, by simp [addTail, Json.applyPatch_nil], ?_⟩
        simp only [Json.eqv]
        refine Json.eqvList_of_zip cs n ?_ hcz
        rw [hcl]
        simp [List.length_take]
        omega
      · have hxn : xs.length ≤ n.length := by omega
        have hcsl : cs.length = xs.length := by
          rw [hcl]
          simp [List.length_take]
          omega
        rw [← hcsl, Json.applyPatch_addTail (n.drop cs.length) cs]
        refine ⟨.arr (cs ++ n.drop cs.length), rfl, ?_⟩
        simp only [Json.eqv]
        have h5 : Json.eqvList (cs ++ n.drop cs.length)
            (n.take cs.length ++ n.drop cs.length) = true := by
          refine Json.eqvList_append cs (n.take cs.length) (n.drop cs.length)
            (n.drop cs.length) ?_ ?_
          · refine Json.eqvList_of_zip cs (n.take cs.length) ?_ ?_
            · simp [List.length_take]
              omega
            · intro p hp
              refine hcz p ?_
              rw [← zip_take_self cs n]
              exact hp
          · exact Json.eqvList_self (n.drop cs.length)
              (fun x hx => Json.eqv_refl x
                (wf_of_mem_list n x hwn (List.drop_subset _ _ hx)))
        rwa [List.take_append_drop] at h5
    · exact Json.diff_apply_base (.arr xs) b hwb hbase
  · intro o ihm b hwa hwb
    rcases diff_spec (.obj o) b with ⟨o2, n, h1, h2⟩ | ⟨o2, n, h1, h2⟩ | hbase
    · obtain rfl : o = o2 := by injection h1
      subst h2
      have hwo : Json.wfFields o = true := by simpa [Json.wf] using hwa
      have hwn : Json.wfFields n = true := by simpa [Json.wf] using hwb
      have hkOko : keysOk o = true := wfFields_keysOk o hwo
      have hkOkn : keysOk n = true := wfFields_keysOk n hwn
      obtain ⟨fs2, hfs2, hOk2, hnone2, hframe2, hrem2, hupd2⟩ :=
        Json.applyPatch_diffFields o o n
          (fun kv hkv nv hget => ihm kv hkv nv
            (wf_of_mem_fields o kv.1 kv.2 hwo (by simpa using hkv))
            (wf_of_getF n kv.1 nv hwn hget))
          (fun kv hkv => getF_of_mem_keysOk o kv.1 kv.2 hkOko (by simpa using hkv))
          hkOko hkOko
      have hadds := Json.applyPatch_diffAdds n o fs2
        (fun p hp => hnone2 p.1
          (by simpa using (List.mem_filter.mp hp).2))
        hkOkn
      simp only [Json.diff]
      rw [Json.applyPatch_append, hfs2]
      show ∃ c, Json.applyPatch (diffAdds o n) (.obj fs2) = some c ∧
        Json.eqv c (.obj n) = true
      rw [hadds]
      refine ⟨.obj (fs2 ++ n.filter (fun p => (getF o p.1).isNone)), rfl, ?_⟩
      simp only [Json.eqv, Bool.and_eq_true]
      constructor
      · refine Json.eqvFields_append fs2 _ n ?_ ?_
        · refine Json.eqvFields_of_forall fs2 n ?_
          intro kv hkv
          have hget2 : getF fs2 kv.1 = some kv.2 :=
            getF_of_mem_keysOk fs2 kv.1 kv.2 hOk2 (by simpa using hkv)
          cases ho : getF o kv.1 with
          | none =>
            rw [hnone2 kv.1 ho] at hget2
            cases hget2
          | some ov0 =>
            have hmem : (kv.1, ov0) ∈ o := getF_mem o kv.1 ov0 ho
            cases hn : getF n kv.1 with
            | none =>
              rw [hrem2 (kv.1, ov0) hmem hn] at hget2
              cases hget2
            | some nv =>
              obtain ⟨c, hc1, hc2⟩ := hupd2 (kv.1, ov0) hmem nv hn
              rw [hc1] at hget2
              obtain rfl := Option.some.inj hget2
              exact ⟨nv, rfl, hc2⟩
        · refine Json.eqvFields_of_forall _ n ?_
          intro p hp
          have hpn : p ∈ n := List.mem_of_mem_filter hp
          refine ⟨p.2, getF_of_mem_keysOk n p.1 p.2 hkOkn (by simpa using hpn), ?_⟩
          exact Json.eqv_refl p.2 (wf_of_mem_fields n p.1 p.2 hwn (by simpa using hpn))
      · rw [List.all_eq_true]
        intro p hp
        have hgn : getF n p.1 = some p.2 :=
          getF_of_mem_keysOk n p.1 p.2 hkOkn (by simpa using hp)
        rw [getF_append]
        cases h2 : getF fs2 p.1 with
        | some w => simp
        | none =>
          cases ho : getF o p.1 with
          | some ov0 =>
            obtain ⟨c, hc1, _⟩ := hupd2 (p.1, ov0) (getF_mem o p.1 ov0 ho) p.2 hgn
            rw [h2] at hc1
            cases hc1
          | none =>
            have hpf : p ∈ n.filter (fun q => (getF o q.1).isNone) := by
              rw [List.mem_filter]
              exact ⟨hp, by simp [ho]⟩
            simpa using getF_isSome_of_mem _ p.1 p.2 (by simpa using hpf)
    · simp at h1
    · exact Json.diff_apply_base (.obj o) b hwb hbase

theorem Json.diffFields_self (todo : List (String × Json)) :
    ∀ n : List (String × Json),
    (∀ kv ∈ todo, getF n kv.1 = some kv.2) →
    (∀ kv ∈ todo, Json.diff kv.2 kv.2 = []) →
    Json.diffFields todo n = [] := by
  induction todo with
  | nil => intro n _ _; rfl
  | cons kv todo ih =>
    intro n h1 h2
    obtain ⟨k, ov⟩ := kv
    simp only [Json.diffFields]
    rw [h1 (k, ov) (by simp)]
    simp [h2 (k, ov) (by simp),
      ih n (fun q hq => h1 q (by simp [hq])) (fun q hq => h2 q (by simp [hq]))]

theorem Json.diffArrVals_self (xs : List Json) (h : ∀ x ∈ xs, Json.diff x x = []) :
    ∀ i : Nat, Json.diffArrVals i xs xs = [] := by
  induction xs with
  | nil => intro i; rfl
  | cons x xs ih =>
    intro i
    simp only [Json.diffArrVals]
    rw [h x (by simp)]
    simp [ih (fun y hy => h y (by simp [hy])) (i + 1)]

theorem removeTail_ge : ∀ (ol nl : Nat), ol ≤ nl → removeTail ol nl = [] := by
  intro ol
  induction ol with
  | zero => intro nl _; rfl
  | succ m ih =>
    intro nl h
    simp only [removeTail]
    rw [if_neg (by omega)]

theorem Json.diff_self (a : Json) : Json.wf a = true → Json.diff a a = [] := by
  refine Json.inductionOn (fun a => Json.wf a = true → Json.diff a a = []) ?_ ?_ ?_ ?_ ?_ ?_ a
  · intro _; simp [Json.diff]
  · intro b _; simp [Json.diff]
  · intro v _; simp [Json.diff]
  · intro v _; simp [Json.diff]
  · intro xs ihm hw
    simp only [Json.wf] at hw
    simp only [Json.diff]
    rw [removeTail_ge xs.length xs.length (le_refl _),
      Json.diffArrVals_self xs (fun x hx => ihm x hx (wf_of_mem_list xs x hw hx)) 0]
    simp [List.drop_length, addTail]
  · intro fs ihm hw
    simp only [Json.wf] at hw
    have hk := wfFields_keysOk fs hw
    simp only [Json.diff]
    rw [Json.diffFields_self fs fs
      (fun kv hkv => getF_of_mem_keysOk fs kv.1 kv.2 hk (by simpa using hkv))
      (fun kv hkv => ihm kv hkv (wf_of_mem_fields fs kv.1 kv.2 hw (by simpa using hkv)))]
    have hfil : fs.filter (fun p => (getF fs p.1).isNone) = [] := by
      rw [List.filter_eq_nil]
      intro p hp
      have hh := getF_isSome_of_mem fs p.1 p.2 (by simpa using hp)
      simp only [Option.isNone_iff_eq_none]
      intro heq
      rw [heq] at hh
      simp at hh
    simp [diffAdds, hfil]

theorem isValidPatchOp_toJson (op : PatchOp) : isValidPatchOpJson op.toJson = true := by
  cases op <;> rfl

theorem serializePatch_valid (ops : List PatchOp) :
    isValidPatchJson (serializePatch ops) = true := by
  simp only [serializePatch, isValidPatchJson, List.all_eq_true]
  intro j hj
  obtain ⟨op, _, rfl⟩ := List.mem_map.mp hj
  exact isValidPatchOp_toJson op

theorem foldl_induct {α β : Type} (f : β → α → β) (P : β → Prop) :
    ∀ (l : List α) (b : β), P b → (∀ x ∈ l, ∀ acc, P acc → P (f acc x)) →
    P (l.foldl f b) := by
  intro l
  induction l with
  | nil => intro b hb _; exact hb
  | cons x l ih =>
    intro b hb hf
    exact ih (f b x) (hf x (by simp) b hb)
      (fun y hy acc hacc => hf y (by simp [hy]) acc hacc)

theorem runAll_induct (cfg : ModuleConfig) (req : Request) (caps : List Capability)
    (P : PState → Prop)
    (h0 : P { raw := req.object, warnings := [], steps := [], mode := .running })
    (hstep : ∀ cap ∈ caps, ∀ b ∈ cap.bindings, ∀ st, P st →
      P (runBinding cfg req cap.name st b)) :
    P (runAll cfg caps req) := by
  unfold runAll
  refine foldl_induct _ P caps _ h0 ?_
  intro cap hcap st hst
  unfold runCap
  exact foldl_induct _ P cap.bindings st hst
    (fun b hb acc hacc => hstep cap hcap b hb acc hacc)

theorem runBinding_cases (cfg : ModuleConfig) (req : Request) (capName : String)
    (st : PState) (b : Binding) :
    (st.mode = .thrown ∧ runBinding cfg req capName st b = st) ∨
    (st.mode = .halted ∧ runBinding cfg req capName st b =
      { st with steps := st.steps ++ [⟨capName, .notReached, st.raw, st.raw, st.raw⟩] }) ∨
    (st.mode = .running ∧ shouldSkipRequest b req = true ∧
      runBinding cfg req capName st b =
      { st with steps := st.steps ++ [⟨capName, .skipped, st.raw, st.raw, st.raw⟩] }) ∨
    (st.mode = .running ∧ shouldSkipRequest b req = false ∧
      (runBinding cfg req capName st b).mode = .thrown ∧
      (runBinding cfg req capName st b).steps = st.steps ∧
      (runBinding cfg req capName st b).raw = st.raw) ∨
    (st.mode = .running ∧ shouldSkipRequest b req = false ∧
      ∃ r1 r3, stampAnn st.raw (identifierOf cfg capName) "started" = some r1 ∧
        (b.callback r1).2 = none ∧
        stampAnn (b.callback r1).1 (identifierOf cfg capName) "succeeded" = some r3 ∧
        runBinding cfg req capName st b =
          { st with
            raw := r3,
            steps := st.steps ++ [⟨capName, .succeeded, st.raw, (b.callback r1).1, r3⟩] }) ∨
    (st.mode = .running ∧ shouldSkipRequest b req = false ∧ cfg.rejectOnError = true ∧
      ∃ r1 e, stampAnn st.raw (identifierOf cfg capName) "started" = some r1 ∧
        (b.callback r1).2 = some e ∧
        runBinding cfg req capName st b =
          { st with
            raw := (b.callback r1).1,
            warnings := st.warnings ++ ["Action failed: " ++ e], mode := .halted,
            steps := st.steps ++
              [⟨capName, .failed, st.raw, (b.callback r1).1, (b.callback r1).1⟩] }) ∨
    (st.mode = .running ∧ shouldSkipRequest b req = false ∧ cfg.rejectOnError = false ∧
      ∃ r1 e r3, stampAnn st.raw (identifierOf cfg capName) "started" = some r1 ∧
        (b.callback r1).2 = some e ∧
        stampAnn (b.callback r1).1 (identifierOf cfg capName) "warning" = some r3 ∧
        runBinding cfg req capName st b =
          { st with
            raw := r3,
            warnings := st.warnings ++ ["Action failed: " ++ e],
            steps := st.steps ++
              [⟨capName, .failed, st.raw, (b.callback r1).1, r3⟩] }) := by
  cases hm : st.mode with
  | thrown =>
    left
    exact ⟨rfl, by simp [runBinding, hm]⟩
  | halted =>
    right; left
    exact ⟨rfl, by simp [runBinding, hm]⟩
  | running =>
    by_cases hskip : shouldSkipRequest b req
    · right; right; left
      exact ⟨rfl, hskip, by simp [runBinding, hm, hskip]⟩
    · cases h1 : stampAnn st.raw (identifierOf cfg capName) "started" with
      | none =>
        right; right; right; left
        refine ⟨rfl, by simp [hskip], ?_, ?_, ?_⟩ <;>
          simp [runBinding, hm, hskip, h1]
      | some r1 =>
        cases h2 : (b.callback r1).2 with
        | none =>
          cases h3 : stampAnn (b.callback r1).1 (identifierOf cfg capName) "succeeded" with
          | none =>
            right; right; right; left
            refine ⟨rfl, by simp [hskip], ?_, ?_, ?_⟩ <;>
              simp [runBinding, hm, hskip, h1, h2, h3]
          | some r3 =>
            right; right; right; right; left
            exact ⟨rfl, by simp [hskip], r1, r3, rfl, h2, h3,
              by simp [runBinding, hm, hskip, h1, h2, h3]⟩
        | some e =>
          by_cases hrej : cfg.rejectOnError
          · right; right; right; right; right; left
            exact ⟨rfl, by simp [hskip], hrej, r1, e, rfl, h2,
              by simp [runBinding, hm, hskip, h1, h2, hrej]⟩
          · cases h3 : stampAnn (b.callback r1).1 (identifierOf cfg capName) "warning" with
            | none =>
              right; right; right; left
              refine ⟨rfl, by simp [hskip], ?_, ?_, ?_⟩ <;>
                simp [runBinding, hm, hskip, h1, h2, h3, hrej]
            | some r3 =>
              right; right; right; right; right; right
              exact ⟨rfl, by simp [hskip], by simp [hrej], r1, e, r3, rfl, h2, h3,
                by simp [runBinding, hm, hskip, h1, h2, h3, hrej]⟩

theorem stampAnn_spec (raw : Json) (k v : String) (r : Json)
    (h : stampAnn raw k v = some r) :
    ∃ fs ms as, raw = .obj fs ∧ getF fs "metadata" = some (.obj ms) ∧
      Json.metaMap raw "annotations" = as ∧
      (getF ms "annotations" = some (.obj as) ∨ as = []) ∧
      r = .obj (setF fs "metadata"
        (.obj (setF ms "annotations" (.obj (setF as k (.str v)))))) := by
  cases raw with
  | obj fs =>
    simp only [stampAnn] at h
    cases hmd : getF fs "metadata" with
    | none => simp only [hmd] at h; simp at h
    | some md =>
      cases md with
      | obj ms =>
        simp only [hmd] at h
        cases han : getF ms "annotations" with
        | none =>
          simp only [han] at h
          refine ⟨fs, ms, [], rfl, hmd, ?_, Or.inr rfl, ?_⟩
          · simp [Json.metaMap, hmd, han]
          · simpa using h.symm
        | some av =>
          cases av with
          | obj as =>
            simp only [han] at h
            refine ⟨fs, ms, as, rfl, hmd, ?_, Or.inl han, ?_⟩
            · simp [Json.metaMap, hmd, han]
            · simpa using h.symm
          | null =>
            simp only [han] at h
            split at h
            · refine ⟨fs, ms, [], rfl, hmd, ?_, Or.inr rfl, ?_⟩
              · simp [Json.metaMap, hmd, han]
              · simpa using h.symm
            · simp at h
          | bool bv =>
            simp only [han] at h
            split at h
            · refine ⟨fs, ms, [], rfl, hmd, ?_, Or.inr rfl, ?_⟩
              · simp [Json.metaMap, hmd, han]
              · simpa using h.symm
            · simp at h
          | num nv =>
            simp only [han] at h
            split at h
            · refine ⟨fs, ms, [], rfl, hmd, ?_, Or.inr rfl, ?_⟩
              · simp [Json.metaMap, hmd, han]
              · simpa using h.symm
            · simp at h
          | str sv =>
            simp only [han] at h
            split at h
            · refine ⟨fs, ms, [], rfl, hmd, ?_, Or.inr rfl, ?_⟩
              · simp [Json.metaMap, hmd, han]
              · simpa using h.symm
            · simp at h
          | arr av =>
            simp only [han] at h
            split at h
            · refine ⟨fs, ms, [], rfl, hmd, ?_, Or.inr rfl, ?_⟩
              · simp [Json.metaMap, hmd, han]
              · simpa using h.symm
            · simp at h
      | null => simp only [hmd] at h; simp at h
      | bool bv => simp only [hmd] at h; simp at h
      | num nv => simp only [hmd] at h; simp at h
      | str sv => simp only [hmd] at h; simp at h
      | arr av => simp only [hmd] at h; simp at h
  | null => simp [stampAnn] at h
  | bool bv => simp [stampAnn] at h
  | num nv => simp [stampAnn] at h
  | str sv => simp [stampAnn] at h
  | arr av => simp [stampAnn] at h

theorem stampAnn_annGet (raw : Json) (k v : String) (r : Json)
    (h : stampAnn raw k v = some r) : annGet r k = some (.str v) := by
  obtain ⟨fs, ms, as, _, _, _, _, rfl⟩ := stampAnn_spec raw k v r h
  simp only [annGet, Json.metaMap, getF_setF_self]

theorem stampAnn_annGet_ne (raw : Json) (k v k2 : String) (r : Json)
    (h : stampAnn raw k v = some r) (hne : k2 ≠ k) :
    annGet r k2 = annGet raw k2 := by
  obtain ⟨fs, ms, as, hraw, hmd, hmm, _, rfl⟩ := stampAnn_spec raw k v r h
  subst hraw
  simp only [annGet, Json.metaMap, getF_setF_self, hmd]
  rw [getF_setF_ne as k k2 (.str v) hne]
  simp only [Json.metaMap, hmd] at hmm
  rw [hmm]

theorem stampAnn_wf (raw : Json) (k v : String) (r : Json)
    (hw : Json.wf raw = true) (h : stampAnn raw k v = some r) : Json.wf r = true := by
  obtain ⟨fs, ms, as, hraw, hmd, _, has, rfl⟩ := stampAnn_spec raw k v r h
  subst hraw
  simp only [Json.wf] at hw
  have hms : Json.wfFields ms = true := by
    have hh := wf_of_getF fs "metadata" (.obj ms) hw hmd
    simpa [Json.wf] using hh
  have hasw : Json.wfFields as = true := by
    rcases has with h1 | h1
    · have hh := wf_of_getF ms "annotations" (.obj as) hms h1
      simpa [Json.wf] using hh
    · subst h1; rfl
  simp only [Json.wf]
  refine wfFields_setF fs "metadata" _ hw ?_
  simp only [Json.wf]
  refine wfFields_setF ms "annotations" _ hms ?_
  simp only [Json.wf]
  exact wfFields_setF as k (.str v) hasw rfl

theorem processorT_spec (cfg : ModuleConfig) (caps : List Capability) (req : Request) :
    ((runAll cfg caps req).mode = .thrown ∧ processorT cfg caps req = none) ∨
    ((runAll cfg caps req).mode = .halted ∧ processorT cfg caps req =
      some { response :=
              { uid := req.uid, allowed := false, patchType := "JSONPatch",
                warnings := (runAll cfg caps req).warnings,
                result := some "Pepr module configured to reject on error",
                patch := none },
             steps := (runAll cfg caps req).steps, raw := (runAll cfg caps req).raw }) ∨
    ((runAll cfg caps req).mode = .running ∧ processorT cfg caps req =
      some { response :=
              { uid := req.uid, allowed := true, patchType := "JSONPatch",
                warnings := (runAll cfg caps req).warnings, result := none,
                patch := some (Json.diff req.object (runAll cfg caps req).raw) },
             steps := (runAll cfg caps req).steps, raw := (runAll cfg caps req).raw }) := by
  cases hm : (runAll cfg caps req).mode with
  | thrown => left; exact ⟨rfl, by simp [processorT, hm]⟩
  | halted => right; left; exact ⟨rfl, by simp [processorT, hm]⟩
  | running => right; right; exact ⟨rfl, by simp [processorT, hm]⟩

/-- C7: every response returned by `processor` carries `uid = request.uid`, on
every path including the `rejectOnError` early return. -/
theorem C7_uid_echoed (cfg : ModuleConfig) (caps : List Capability) (req : Request)
    (resp : Response) (h : processor cfg caps req = some resp) : resp.uid = req.uid := by
  rcases processorT_spec cfg caps req with ⟨_, he⟩ | ⟨_, he⟩ | ⟨_, he⟩
  · rw [processor, he] at h
    cases h
  · simp only [processor, he, Option.map_some'] at h
    obtain rfl := Option.some.inj h.symm
    rfl
  · simp only [processor, he, Option.map_some'] at h
    obtain rfl := Option.some.inj h.symm
    rfl

/-- Witness for C7 at a concrete input. -/
theorem C7_uid_echoed_witness :
    processor cfgW [] reqW = some ((processor cfgW [] reqW).getD dfltProc.response) ∧
    ((processor cfgW [] reqW).getD dfltProc.response).uid = reqW.uid :=
  ⟨by decide, C7_uid_echoed cfgW [] reqW _ (by decide)⟩

theorem countFailed_append_single (steps : List Step) (s : Step) :
    countFailed (steps ++ [s]) =
      countFailed steps + (if s.outcome = .failed then 1 else 0) := by
  simp only [countFailed, List.countP_append, List.countP_cons, List.countP_nil]
  by_cases h : s.outcome = .failed
  · simp [h]
  · simp [h]

theorem countFailed_zero_not_failed (steps : List Step) (h : countFailed steps = 0)
    (s : Step) (hs : s ∈ steps) : s.outcome ≠ .failed := by
  intro hf
  rw [countFailed, List.countP_eq_zero] at h
  have := h s hs
  simp [hf] at this

theorem runAll_reject_invariant (cfg : ModuleConfig) (caps : List Capability)
    (req : Request) (hrej : cfg.rejectOnError = true) :
    ((runAll cfg caps req).mode = .running → countFailed (runAll cfg caps req).steps = 0 ∧
      ∀ s ∈ (runAll cfg caps req).steps, s.outcome ≠ .notReached) ∧
    ((runAll cfg caps req).mode = .halted → countFailed (runAll cfg caps req).steps = 1) ∧
    (runAll cfg caps req).steps.Pairwise
      (fun a b => a.outcome = .failed → b.outcome = .notReached) := by
  refine runAll_induct cfg req caps
    (P := fun st => (st.mode = .running → countFailed st.steps = 0 ∧
        ∀ s ∈ st.steps, s.outcome ≠ .notReached) ∧
      (st.mode = .halted → countFailed st.steps = 1) ∧
      st.steps.Pairwise (fun a b => a.outcome = .failed → b.outcome = .notReached))
    ?_ ?_
  · refine ⟨fun _ => ⟨rfl, by simp⟩, ?_, List.Pairwise.nil⟩
    intro hh
    simp at hh
  · intro cap hcap b hb st hst
    obtain ⟨hrun, hhalt, hpw⟩ := hst
    rcases runBinding_cases cfg req cap.name st b with
      ⟨hm, he⟩ | ⟨hm, he⟩ | ⟨hm, _, he⟩ | ⟨hm, _, he1, he2, he3⟩ |
      ⟨hm, _, r1, r3, h1, h2, h3, he⟩ | ⟨hm, _, hrej2, r1, e, h1, h2, he⟩ |
      ⟨hm, _, hrej2, r1, e, r3, h1, h2, h3, he⟩
    · rw [he]; exact ⟨hrun, hhalt, hpw⟩
    · rw [he]
      refine ⟨by simp [hm], ?_, ?_⟩
      · intro _
        simp only
        rw [countFailed_append_single]
        simp [hhalt hm]
      · simp only
        rw [List.pairwise_append]
        exact ⟨hpw, by simp, fun a ha s hs hf => by
          simp only [List.mem_singleton] at hs
          rw [hs]⟩
    · rw [he]
      have h0 := hrun hm
      refine ⟨?_, by simp [hm], ?_⟩
      · intro _
        simp only
        constructor
        · rw [countFailed_append_single]
          simp [h0.1]
        · intro s hs
          rcases List.mem_append.mp hs with h1 | h1
          · exact h0.2 s h1
          · simp only [List.mem_singleton] at h1
            rw [h1]
            simp
      · simp only
        rw [List.pairwise_append]
        refine ⟨hpw, by simp, fun a ha s hs hf => ?_⟩
        exact absurd hf (countFailed_zero_not_failed st.steps h0.1 a ha)
    · constructor
      · intro hh; rw [he1] at hh; cases hh
      · constructor
        · intro hh; rw [he1] at hh; cases hh
        · rw [he2]; exact hpw
    · rw [he]
      have h0 := hrun hm
      refine ⟨?_, by simp [hm], ?_⟩
      · intro _
        simp only
        constructor
        · rw [countFailed_append_single]
          simp [h0.1]
        · intro s hs
          rcases List.mem_append.mp hs with hh | hh
          · exact h0.2 s hh
          · simp only [List.mem_singleton] at hh
            rw [hh]
            simp
      · simp only
        rw [List.pairwise_append]
        refine ⟨hpw, by simp, fun a ha s hs hf => ?_⟩
        exact absurd hf (countFailed_zero_not_failed st.steps (hrun hm).1 a ha)
    · rw [he]
      have h0 := hrun hm
      refine ⟨by simp, ?_, ?_⟩
      · intro _
        simp only
        rw [countFailed_append_single]
        simp [h0.1]
      · simp only
        rw [List.pairwise_append]
        refine ⟨hpw, by simp, fun a ha s hs hf => ?_⟩
        exact absurd hf (countFailed_zero_not_failed st.steps h0.1 a ha)
    · rw [hrej2] at hrej
      cases hrej

/-- C1: under `rejectOnError = true`, if some callback fails then exactly one
binding failure occurs in the whole execution, every binding after the
failing one is not executed, and the returned response has `allowed = false`,
`result` set and no `patch`. -/
theorem C1_reject_on_error (cfg : ModuleConfig) (caps : List Capability) (req : Request)
    (res : ProcResult) (hrej : cfg.rejectOnError = true)
    (h : processorT cfg caps req = some res) (hfail : 1 ≤ countFailed res.steps) :
    countFailed res.steps = 1 ∧
    res.steps.Pairwise (fun a b => a.outcome = .failed → b.outcome = .notReached) ∧
    res.response.allowed = false ∧ res.response.result.isSome = true ∧
    res.response.patch = none := by
  obtain ⟨hrun, hhalt, hpw⟩ := runAll_reject_invariant cfg caps req hrej
  rcases processorT_spec cfg caps req with ⟨hm, he⟩ | ⟨hm, he⟩ | ⟨hm, he⟩
  · rw [he] at h
    cases h
  · rw [he] at h
    obtain rfl := Option.some.inj h.symm
    exact ⟨hhalt hm, hpw, rfl, rfl, rfl⟩
  · rw [he] at h
    obtain rfl := Option.some.inj h.symm
    exfalso
    have h0 := (hrun hm).1
    simp only at hfail
    omega

/-- Witness for C1 at a concrete input with a failing callback. -/
theorem C1_reject_on_error_witness :
    cfgWR.rejectOnError = true ∧
    1 ≤ countFailed ((processorT cfgWR [capFailTwo] reqW).getD dfltProc).steps ∧
    countFailed ((processorT cfgWR [capFailTwo] reqW).getD dfltProc).steps = 1 ∧
    ((processorT cfgWR [capFailTwo] reqW).getD dfltProc).response.allowed = false ∧
    ((processorT cfgWR [capFailTwo] reqW).getD dfltProc).response.result.isSome = true ∧
    ((processorT cfgWR [capFailTwo] reqW).getD dfltProc).response.patch = none := by
  obtain ⟨a, _, c, d, e⟩ := C1_reject_on_error cfgWR [capFailTwo] reqW
    ((processorT cfgWR [capFailTwo] reqW).getD dfltProc) rfl (by decide) (by decide)
  exact ⟨rfl, by decide, a, c, d, e⟩

/-- C5 counterexample: the processor's reject message is the string
`"Pepr module configured to reject on error"`, not the claimed
`"module configured to reject on error"`. -/
theorem C5_counterexample :
    (processor cfgWR [capFailTwo] reqW).map Response.result =
      some (some "Pepr module configured to reject on error") ∧
    ("Pepr module configured to reject on error" : String) ≠
      "module configured to reject on error" := by
  constructor
  · decide
  · decide

/-- C5 (amended): when a callback fails and `rejectOnError = true`, the
response's `result` is exactly `"Pepr module configured to reject on
error"`. -/
theorem C5_amended_result_string (cfg : ModuleConfig) (caps : List Capability)
    (req : Request) (res : ProcResult) (hrej : cfg.rejectOnError = true)
    (h : processorT cfg caps req = some res) (hfail : 1 ≤ countFailed res.steps) :
    res.response.result = some "Pepr module configured to reject on error" := by
  obtain ⟨hrun, hhalt, hpw⟩ := runAll_reject_invariant cfg caps req hrej
  rcases processorT_spec cfg caps req with ⟨hm, he⟩ | ⟨hm, he⟩ | ⟨hm, he⟩
  · rw [he] at h
    cases h
  · rw [he] at h
    obtain rfl := Option.some.inj h.symm
    rfl
  · rw [he] at h
    obtain rfl := Option.some.inj h.symm
    exfalso
    have h0 := (hrun hm).1
    simp only at hfail
    omega

/-- Witness for the amended C5 at a concrete input. -/
theorem C5_amended_result_string_witness :
    cfgWR.rejectOnError = true ∧
    processorT cfgWR [capFailTwo] reqW =
      some ((processorT cfgWR [capFailTwo] reqW).getD dfltProc) ∧
    1 ≤ countFailed ((processorT cfgWR [capFailTwo] reqW).getD dfltProc).steps ∧
    ((processorT cfgWR [capFailTwo] reqW).getD dfltProc).response.result =
      some "Pepr module configured to reject on error" :=
  ⟨rfl, by decide, by decide,
    C5_amended_result_string cfgWR [capFailTwo] reqW _ rfl (by decide) (by decide)⟩

theorem runAll_continue_invariant (cfg : ModuleConfig) (caps : List Capability)
    (req : Request) (hrej : cfg.rejectOnError = false) :
    (runAll cfg caps req).mode ≠ .halted ∧
    ((runAll cfg caps req).mode = .running →
      (runAll cfg caps req).warnings.length = countFailed (runAll cfg caps req).steps ∧
      (∀ w ∈ (runAll cfg caps req).warnings, ∃ e, w = "Action failed: " ++ e) ∧
      (∀ s ∈ (runAll cfg caps req).steps, s.outcome ≠ .notReached) ∧
      (∀ s ∈ (runAll cfg caps req).steps, s.outcome = .failed →
        annGet s.rawAfter (identifierOf cfg s.capName) = some (.str "warning"))) := by
  refine runAll_induct cfg req caps
    (P := fun st => st.mode ≠ .halted ∧
      (st.mode = .running →
        st.warnings.length = countFailed st.steps ∧
        (∀ w ∈ st.warnings, ∃ e, w = "Action failed: " ++ e) ∧
        (∀ s ∈ st.steps, s.outcome ≠ .notReached) ∧
        (∀ s ∈ st.steps, s.outcome = .failed →
          annGet s.rawAfter (identifierOf cfg s.capName) = some (.str "warning"))))
    ?_ ?_
  · refine ⟨by simp, fun _ => ⟨rfl, by simp, by simp, by simp⟩⟩
  · intro cap hcap b hb st hst
    obtain ⟨hnh, hrun⟩ := hst
    rcases runBinding_cases cfg req cap.name st b with
      ⟨hm, he⟩ | ⟨hm, he⟩ | ⟨hm, _, he⟩ | ⟨hm, _, he1, he2, he3⟩ |
      ⟨hm, _, r1, r3, h1, h2, h3, he⟩ | ⟨hm, _, hrej2, r1, e, h1, h2, he⟩ |
      ⟨hm, _, hrej2, r1, e, r3, h1, h2, h3, he⟩
    · rw [he]; exact ⟨hnh, hrun⟩
    · exact absurd hm hnh
    · rw [he]
      obtain ⟨hw1, hw2, hw3, hw4⟩ := hrun hm
      refine ⟨by simp [hm], fun _ => ?_⟩
      refine ⟨?_, hw2, ?_, ?_⟩
      · simp only
        rw [countFailed_append_single]
        simp [hw1]
      · intro s hs
        rcases List.mem_append.mp hs with hh | hh
        · exact hw3 s hh
        · simp only [List.mem_singleton] at hh
          rw [hh]
          simp
      · intro s hs hf
        rcases List.mem_append.mp hs with hh | hh
        · exact hw4 s hh hf
        · simp only [List.mem_singleton] at hh
          rw [hh] at hf
          cases hf
    · refine ⟨?_, ?_⟩
      · rw [he1]; simp
      · intro hh; rw [he1] at hh; cases hh
    · rw [he]
      obtain ⟨hw1, hw2, hw3, hw4⟩ := hrun hm
      refine ⟨by simp [hm], fun _ => ?_⟩
      refine ⟨?_, hw2, ?_, ?_⟩
      · simp only
        rw [countFailed_append_single]
        simp [hw1]
      · intro s hs
        rcases List.mem_append.mp hs with hh | hh
        · exact hw3 s hh
        · simp only [List.mem_singleton] at hh
          rw [hh]
          simp
      · intro s hs hf
        rcases List.mem_append.mp hs with hh | hh
        · exact hw4 s hh hf
        · simp only [List.mem_singleton] at hh
          rw [hh] at hf
          cases hf
    · rw [hrej2] at hrej
      cases hrej
    · rw [he]
      obtain ⟨hw1, hw2, hw3, hw4⟩ := hrun hm
      refine ⟨by simp [hm], fun _ => ?_⟩
      refine ⟨?_, ?_, ?_, ?_⟩
      · simp only
        rw [countFailed_append_single]
        simp [hw1]
      · intro w hw
        rcases List.mem_append.mp hw with hh | hh
        · exact hw2 w hh
        · simp only [List.mem_singleton] at hh
          exact ⟨e, hh⟩
      · intro s hs
        rcases List.mem_append.mp hs with hh | hh
        · exact hw3 s hh
        · simp only [List.mem_singleton] at hh
          rw [hh]
          simp
      · intro s hs hf
        rcases List.mem_append.mp hs with hh | hh
        · exact hw4 s hh hf
        · simp only [List.mem_singleton] at hh
          rw [hh]
          simp only
          exact stampAnn_annGet (b.callback r1).1 (identifierOf cfg cap.name) "warning" r3 h3

/-- C6: under `rejectOnError = false`, the number of `"Action failed"`
warnings equals the number of failed callbacks, processing continues past
every failure (no binding is left unreached), and each failing binding's
capability annotation is stamped `"warning"` at that point. -/
theorem C6_continue_on_error (cfg : ModuleConfig) (caps : List Capability)
    (req : Request) (res : ProcResult) (hrej : cfg.rejectOnError = false)
    (h : processorT cfg caps req = some res) :
    res.response.warnings.length = countFailed res.steps ∧
    (∀ w ∈ res.response.warnings, ∃ e, w = "Action failed: " ++ e) ∧
    (∀ s ∈ res.steps, s.outcome ≠ .notReached) ∧
    (∀ s ∈ res.steps, s.outcome = .failed →
      annGet s.rawAfter (identifierOf cfg s.capName) = some (.str "warning")) := by
  obtain ⟨hnh, hinv⟩ := runAll_continue_invariant cfg caps req hrej
  rcases processorT_spec cfg caps req with ⟨hm, he⟩ | ⟨hm, he⟩ | ⟨hm, he⟩
  · rw [he] at h
    cases h
  · exact absurd hm hnh
  · rw [he] at h
    obtain rfl := Option.some.inj h.symm
    exact hinv hm

/-- Witness for C6 at a concrete input with one failing and one succeeding
binding. -/
theorem C6_continue_on_error_witness :
    cfgW.rejectOnError = false ∧
    ((processorT cfgW [capFailTwo] reqW).getD dfltProc).response.warnings.length =
      countFailed ((processorT cfgW [capFailTwo] reqW).getD dfltProc).steps :=
  ⟨rfl, (C6_continue_on_error cfgW [capFailTwo] reqW _ rfl (by decide)).1⟩

theorem string_append_left_cancel (a b c : String) (h : a ++ b = a ++ c) : b = c := by
  have h2 := congrArg String.data h
  simp only [String.data_append] at h2
  exact String.ext (List.append_cancel_left h2)

theorem identifierOf_inj (cfg : ModuleConfig) (n1 n2 : String) (h : n1 ≠ n2) :
    identifierOf cfg n1 ≠ identifierOf cfg n2 := by
  intro he
  apply h
  simp only [identifierOf] at he
  exact string_append_left_cancel ("pepr.dev/" ++ cfg.id ++ "/") n1 n2
    (by simpa [String.append_assoc] using he)

theorem runAll_skip_annGet (cfg : ModuleConfig) (caps : List Capability)
    (req : Request) (capName : String)
    (hsk : ∀ cap ∈ caps, cap.name = capName →
      ∀ b ∈ cap.bindings, shouldSkipRequest b req = true)
    (hcb : ∀ cap ∈ caps, ∀ b ∈ cap.bindings, ∀ raw : Json,
      annGet ((b.callback raw).1) (identifierOf cfg capName) =
        annGet raw (identifierOf cfg capName))
    (hin : annGet req.object (identifierOf cfg capName) = none) :
    annGet (runAll cfg caps req).raw (identifierOf cfg capName) = none := by
  refine runAll_induct cfg req caps
    (P := fun st => annGet st.raw (identifierOf cfg capName) = none) hin ?_
  intro cap hcap b hb st hst
  rcases runBinding_cases cfg req cap.name st b with
    ⟨hm, he⟩ | ⟨hm, he⟩ | ⟨hm, _, he⟩ | ⟨hm, _, he1, he2, he3⟩ |
    ⟨hm, hns, r1, r3, h1, h2, h3, he⟩ | ⟨hm, hns, hrej2, r1, e, h1, h2, he⟩ |
    ⟨hm, hns, hrej2, r1, e, r3, h1, h2, h3, he⟩
  · rw [he]; exact hst
  · rw [he]; exact hst
  · rw [he]; exact hst
  · rw [he3]; exact hst
  · have hname : cap.name ≠ capName := by
      intro heq
      rw [hsk cap hcap heq b hb] at hns
      cases hns
    have hid := identifierOf_inj cfg capName cap.name (fun hh => hname hh.symm)
    rw [he]
    simp only
    rw [stampAnn_annGet_ne (b.callback r1).1 (identifierOf cfg cap.name) "succeeded"
      (identifierOf cfg capName) r3 h3 hid]
    rw [hcb cap hcap b hb r1]
    rw [stampAnn_annGet_ne st.raw (identifierOf cfg cap.name) "started"
      (identifierOf cfg capName) r1 h1 hid]
    exact hst
  · have hname : cap.name ≠ capName := by
      intro heq
      rw [hsk cap hcap heq b hb] at hns
      cases hns
    have hid := identifierOf_inj cfg capName cap.name (fun hh => hname hh.symm)
    rw [he]
    simp only
    rw [hcb cap hcap b hb r1]
    rw [stampAnn_annGet_ne st.raw (identifierOf cfg cap.name) "started"
      (identifierOf cfg capName) r1 h1 hid]
    exact hst
  · have hname : cap.name ≠ capName := by
      intro heq
      rw [hsk cap hcap heq b hb] at hns
      cases hns
    have hid := identifierOf_inj cfg capName cap.name (fun hh => hname hh.symm)
    rw [he]
    simp only
    rw [stampAnn_annGet_ne (b.callback r1).1 (identifierOf cfg cap.name) "warning"
      (identifierOf cfg capName) r3 h3 hid]
    rw [hcb cap hcap b hb r1]
    rw [stampAnn_annGet_ne st.raw (identifierOf cfg cap.name) "started"
      (identifierOf cfg capName) r1 h1 hid]
    exact hst

/-- C9 counterexample: a binding skipped by the filter does not prevent the
capability's identifier key from appearing in the output when a sibling
binding of the same capability runs. -/
theorem C9_counterexample :
    shouldSkipRequest bindSkip reqW = true ∧
    bindSkip ∈ capSkipRun.bindings ∧
    annGet ((processorT cfgW [capSkipRun] reqW).getD dfltProc).raw
      (identifierOf cfgW capSkipRun.name) = some (.str "succeeded") := by
  refine ⟨by decide, by simp [capSkipRun], by decide⟩

/-- C9 (amended): if every binding of every capability named `capName` is
skipped by the filter, the inbound object does not already carry the
capability's identifier key, and no callback writes that key, then the key
is absent from the final working copy. -/
theorem C9_skipped_key_absent (cfg : ModuleConfig) (caps : List Capability)
    (req : Request) (capName : String) (res : ProcResult)
    (hsk : ∀ cap ∈ caps, cap.name = capName →
      ∀ b ∈ cap.bindings, shouldSkipRequest b req = true)
    (hcb : ∀ cap ∈ caps, ∀ b ∈ cap.bindings, ∀ raw : Json,
      annGet ((b.callback raw).1) (identifierOf cfg capName) =
        annGet raw (identifierOf cfg capName))
    (hin : annGet req.object (identifierOf cfg capName) = none)
    (h : processorT cfg caps req = some res) :
    annGet res.raw (identifierOf cfg capName) = none := by
  have hinv := runAll_skip_annGet cfg caps req capName hsk hcb hin
  rcases processorT_spec cfg caps req with ⟨hm, he⟩ | ⟨hm, he⟩ | ⟨hm, he⟩
  · rw [he] at h
    cases h
  · rw [he] at h
    obtain rfl := Option.some.inj h.symm
    exact hinv
  · rw [he] at h
    obtain rfl := Option.some.inj h.symm
    exact hinv

/-- Witness for the amended C9 at a concrete input: a capability whose only
binding is skipped, beside a capability that runs. -/
theorem C9_skipped_key_absent_witness :
    annGet reqW.object (identifierOf cfgW "capz") = none ∧
    annGet ((processorT cfgW [capSkipOnly, capOne] reqW).getD dfltProc).raw
      (identifierOf cfgW "capz") = none := by
  refine ⟨by decide, ?_⟩
  refine C9_skipped_key_absent cfgW [capSkipOnly, capOne] reqW "capz" _
    (by decide) ?_ (by decide) (by decide)
  intro cap hcap b hb raw
  rcases List.mem_cons.mp hcap with rfl | hcap2
  · simp only [capSkipOnly, List.mem_singleton] at hb
    subst hb
    rfl
  · rcases List.mem_cons.mp hcap2 with rfl | h3
    · simp only [capOne, List.mem_singleton] at hb
      subst hb
      rfl
    · simp at h3

theorem runAll_all_skipped (cfg : ModuleConfig) (caps : List Capability) (req : Request)
    (hskip : ∀ cap ∈ caps, ∀ b ∈ cap.bindings, shouldSkipRequest b req = true) :
    (runAll cfg caps req).raw = req.object ∧ (runAll cfg caps req).mode = .running := by
  refine runAll_induct cfg req caps
    (P := fun st => st.raw = req.object ∧ st.mode = .running) ⟨rfl, rfl⟩ ?_
  intro cap hcap b hb st hst
  rcases runBinding_cases cfg req cap.name st b with
    ⟨hm, he⟩ | ⟨hm, he⟩ | ⟨hm, _, he⟩ | ⟨hm, hns, he1, he2, he3⟩ |
    ⟨hm, hns, r1, r3, h1, h2, h3, he⟩ | ⟨hm, hns, hrej2, r1, e, h1, h2, he⟩ |
    ⟨hm, hns, hrej2, r1, e, r3, h1, h2, h3, he⟩
  · rw [hst.2] at hm; cases hm
  · rw [hst.2] at hm; cases hm
  · rw [he]; exact hst
  · rw [hskip cap hcap b hb] at hns; cases hns
  · rw [hskip cap hcap b hb] at hns; cases hns
  · rw [hskip cap hcap b hb] at hns; cases hns
  · rw [hskip cap hcap b hb] at hns; cases hns

/-- C3 counterexample: a binding matched and ran with a callback that mutates
nothing (`cbId`), yet the produced patch is not the empty array, because the
processor's annotation stamping mutates the working copy. -/
theorem C3_counterexample :
    ((processorT cfgW [capOne] reqW).getD dfltProc).steps.map Step.outcome =
      [.succeeded] ∧
    (processor cfgW [capOne] reqW).map Response.patch ≠ some (some []) := by
  exact ⟨by decide, by decide⟩

/-- C3 (amended): if every binding of every capability is skipped by the
filter, so that no binding runs, then the produced patch is the empty JSON
Patch array. -/
theorem C3_all_skipped_empty_patch (cfg : ModuleConfig) (caps : List Capability)
    (req : Request) (resp : Response)
    (hwf : Json.wf req.object = true)
    (hskip : ∀ cap ∈ caps, ∀ b ∈ cap.bindings, shouldSkipRequest b req = true)
    (h : processor cfg caps req = some resp) :
    resp.patch = some [] := by
  obtain ⟨hraw, hm⟩ := runAll_all_skipped cfg caps req hskip
  rcases processorT_spec cfg caps req with ⟨hms, he⟩ | ⟨hms, he⟩ | ⟨hms, he⟩
  · rw [processor, he] at h
    cases h
  · rw [hm] at hms
    cases hms
  · simp only [processor, he, Option.map_some'] at h
    obtain rfl := Option.some.inj h.symm
    show some (Json.diff req.object (runAll cfg caps req).raw) = some []
    rw [hraw, Json.diff_self req.object hwf]

/-- Witness for the amended C3 at a concrete input whose only binding is
skipped. -/
theorem C3_all_skipped_empty_patch_witness :
    Json.wf reqW.object = true ∧
    ((processor cfgW [capSkipOnly] reqW).getD dfltProc.response).patch = some [] :=
  ⟨by decide, C3_all_skipped_empty_patch cfgW [capSkipOnly] reqW _
    (by decide) (by decide) (by decide)⟩

/-- C2: the processor ignores a capability's `namespaces` restriction: with
`capNsRestricted.namespaces = ["kube-system"]` and a request in namespace
`default`, the capability's binding still runs and its annotation is
stamped, contradicting the documentation of `CapabilityCfg.namespaces`. -/
theorem C2_namespaces_ignored :
    capNsRestricted.namespaces = ["kube-system"] ∧
    reqW.«namespace» = "default" ∧
    ((processorT cfgW [capNsRestricted] reqW).getD dfltProc).steps.map Step.outcome =
      [.succeeded] ∧
    annGet ((processorT cfgW [capNsRestricted] reqW).getD dfltProc).raw
      (identifierOf cfgW capNsRestricted.name) = some (.str "succeeded") := by
  exact ⟨rfl, rfl, by decide, by decide⟩

theorem runAll_thread_invariant (cfg : ModuleConfig) (caps : List Capability)
    (req : Request) (hrej : cfg.rejectOnError = false) :
    (runAll cfg caps req).mode = .running →
      (runAll cfg caps req).steps.Chain' (fun a b => b.rawBefore = a.rawAfter) ∧
      ((runAll cfg caps req).steps.getLast?).elim
        ((runAll cfg caps req).raw = req.object)
        (fun s => (runAll cfg caps req).raw = s.rawAfter) ∧
      (∀ s ∈ (runAll cfg caps req).steps, s.outcome = .failed →
        stampAnn s.cbRaw (identifierOf cfg s.capName) "warning" = some s.rawAfter) := by
  refine runAll_induct cfg req caps
    (P := fun st => st.mode = .running →
      st.steps.Chain' (fun a b => b.rawBefore = a.rawAfter) ∧
      (st.steps.getLast?).elim (st.raw = req.object) (fun s => st.raw = s.rawAfter) ∧
      (∀ s ∈ st.steps, s.outcome = .failed →
        stampAnn s.cbRaw (identifierOf cfg s.capName) "warning" = some s.rawAfter))
    (fun _ => ⟨List.chain'_nil, rfl, by simp⟩) ?_
  intro cap hcap b hb st hst
  rcases runBinding_cases cfg req cap.name st b with
    ⟨hm, he⟩ | ⟨hm, he⟩ | ⟨hm, _, he⟩ | ⟨hm, hns, he1, he2, he3⟩ |
    ⟨hm, hns, r1, r3, h1, h2, h3, he⟩ | ⟨hm, hns, hrej2, r1, e, h1, h2, he⟩ |
    ⟨hm, hns, hrej2, r1, e, r3, h1, h2, h3, he⟩
  · rw [he]; exact hst
  · rw [he]
    intro hmr
    simp only at hmr
    rw [hm] at hmr
    cases hmr
  · rw [he]
    intro _
    obtain ⟨hch, hlast, hfs⟩ := hst hm
    refine ⟨?_, ?_, ?_⟩
    · simp only
      rw [List.chain'_append]
      refine ⟨hch, List.chain'_singleton _, ?_⟩
      intro x hx y hy
      simp only [List.head?_cons, Option.mem_def, Option.some.injEq] at hy
      subst hy
      simp only [Option.mem_def] at hx
      rw [hx] at hlast
      simp only [Option.elim] at hlast
      exact hlast
    · simp only
      rw [List.getLast?_concat]
      exact rfl
    · intro s hs hf
      rcases List.mem_append.mp hs with hh | hh
      · exact hfs s hh hf
      · simp only [List.mem_singleton] at hh
        rw [hh] at hf
        cases hf
  · intro hmr
    rw [he1] at hmr
    cases hmr
  · rw [he]
    intro _
    obtain ⟨hch, hlast, hfs⟩ := hst hm
    refine ⟨?_, ?_, ?_⟩
    · simp only
      rw [List.chain'_append]
      refine ⟨hch, List.chain'_singleton _, ?_⟩
      intro x hx y hy
      simp only [List.head?_cons, Option.mem_def, Option.some.injEq] at hy
      subst hy
      simp only [Option.mem_def] at hx
      rw [hx] at hlast
      simp only [Option.elim] at hlast
      exact hlast
    · simp only
      rw [List.getLast?_concat]
      exact rfl
    · intro s hs hf
      rcases List.mem_append.mp hs with hh | hh
      · exact hfs s hh hf
      · simp only [List.mem_singleton] at hh
        rw [hh] at hf
        cases hf
  · rw [hrej2] at hrej
    cases hrej
  · rw [he]
    intro _
    obtain ⟨hch, hlast, hfs⟩ := hst hm
    refine ⟨?_, ?_, ?_⟩
    · simp only
      rw [List.chain'_append]
      refine ⟨hch, List.chain'_singleton _, ?_⟩
      intro x hx y hy
      simp only [List.head?_cons, Option.mem_def, Option.some.injEq] at hy
      subst hy
      simp only [Option.mem_def] at hx
      rw [hx] at hlast
      simp only [Option.elim] at hlast
      exact hlast
    · simp only
      rw [List.getLast?_concat]
      exact rfl
    · intro s hs hf
      rcases List.mem_append.mp hs with hh | hh
      · exact hfs s hh hf
      · simp only [List.mem_singleton] at hh
        rw [hh]
        exact h3

/-- C10: under `rejectOnError = false`, the working copy threads through every
binding without rollback: each step starts from the previous step's
`rawAfter` (including failed steps), each failed step's `rawAfter` is the
warning-stamped document that the callback returned (its partial mutations
included), no binding is left unreached, and the final patch is the diff from
`request.object` to the last `rawAfter`. -/
theorem C10_partial_mutations_kept (cfg : ModuleConfig) (caps : List Capability)
    (req : Request) (res : ProcResult) (hrej : cfg.rejectOnError = false)
    (h : processorT cfg caps req = some res) :
    res.steps.Chain' (fun a b => b.rawBefore = a.rawAfter) ∧
    (res.steps.getLast?).elim (res.raw = req.object) (fun s => res.raw = s.rawAfter) ∧
    (∀ s ∈ res.steps, s.outcome = .failed →
      stampAnn s.cbRaw (identifierOf cfg s.capName) "warning" = some s.rawAfter) ∧
    (∀ s ∈ res.steps, s.outcome ≠ .notReached) ∧
    res.response.patch = some (Json.diff req.object res.raw) := by
  obtain ⟨hnh, hcont⟩ := runAll_continue_invariant cfg caps req hrej
  have hth := runAll_thread_invariant cfg caps req hrej
  rcases processorT_spec cfg caps req with ⟨hm, he⟩ | ⟨hm, he⟩ | ⟨hm, he⟩
  · rw [he] at h
    cases h
  · exact absurd hm hnh
  · rw [he] at h
    obtain rfl := Option.some.inj h.symm
    obtain ⟨hch, hlast, hfs⟩ := hth hm
    exact ⟨hch, hlast, hfs, (hcont hm).2.2.1, rfl⟩

/-- Witness for C10 at a concrete input: a partially-mutating failing binding
followed by a mutating succeeding one; the partial mutation survives into the
final working copy and the patch is computed from it. -/
theorem C10_partial_mutations_kept_witness :
    cfgW.rejectOnError = false ∧
    processorT cfgW [capPartialMut] reqW =
      some ((processorT cfgW [capPartialMut] reqW).getD dfltProc) ∧
    (match ((processorT cfgW [capPartialMut] reqW).getD dfltProc).raw with
     | Json.obj fs => getF fs "partial"
     | _ => none) = some (.str "yes") ∧
    (match ((processorT cfgW [capPartialMut] reqW).getD dfltProc).raw with
     | Json.obj fs => getF fs "mutated"
     | _ => none) = some (.str "yes") ∧
    ((processorT cfgW [capPartialMut] reqW).getD dfltProc).response.patch =
      some (Json.diff reqW.object ((processorT cfgW [capPartialMut] reqW).getD dfltProc).raw) :=
  ⟨rfl, by decide, by decide, by decide,
    (C10_partial_mutations_kept cfgW [capPartialMut] reqW _ rfl (by decide)).2.2.2.2⟩

theorem runAll_wf (cfg : ModuleConfig) (caps : List Capability) (req : Request)
    (hwf : Json.wf req.object = true)
    (hcb : ∀ cap ∈ caps, ∀ b ∈ cap.bindings, ∀ raw : Json, Json.wf raw = true →
      Json.wf ((b.callback raw).1) = true) :
    Json.wf (runAll cfg caps req).raw = true := by
  refine runAll_induct cfg req caps (P := fun st => Json.wf st.raw = true) hwf ?_
  intro cap hcap b hb st hst
  rcases runBinding_cases cfg req cap.name st b with
    ⟨hm, he⟩ | ⟨hm, he⟩ | ⟨hm, _, he⟩ | ⟨hm, hns, he1, he2, he3⟩ |
    ⟨hm, hns, r1, r3, h1, h2, h3, he⟩ | ⟨hm, hns, hrej2, r1, e, h1, h2, he⟩ |
    ⟨hm, hns, hrej2, r1, e, r3, h1, h2, h3, he⟩
  · rw [he]; exact hst
  · rw [he]; exact hst
  · rw [he]; exact hst
  · rw [he3]; exact hst
  · rw [he]
    simp only
    have hw1 := stampAnn_wf st.raw (identifierOf cfg cap.name) "started" r1 hst h1
    have hw2 := hcb cap hcap b hb r1 hw1
    exact stampAnn_wf (b.callback r1).1 (identifierOf cfg cap.name) "succeeded" r3 hw2 h3
  · rw [he]
    simp only
    have hw1 := stampAnn_wf st.raw (identifierOf cfg cap.name) "started" r1 hst h1
    exact hcb cap hcap b hb r1 hw1
  · rw [he]
    simp only
    have hw1 := stampAnn_wf st.raw (identifierOf cfg cap.name) "started" r1 hst h1
    have hw2 := hcb cap hcap b hb r1 hw1
    exact stampAnn_wf (b.callback r1).1 (identifierOf cfg cap.name) "warning" r3 hw2 h3

/-- C4: whenever the processor answers with `allowed = true`, the response
carries a patch, its serialization is a well-formed RFC 6902 patch document,
and applying it to `request.object` yields a document structurally equal to
the final working copy. -/
theorem C4_patch_applies (cfg : ModuleConfig) (caps : List Capability) (req : Request)
    (res : ProcResult)
    (hwf : Json.wf req.object = true)
    (hcb : ∀ cap ∈ caps, ∀ b ∈ cap.bindings, ∀ raw : Json, Json.wf raw = true →
      Json.wf ((b.callback raw).1) = true)
    (h : processorT cfg caps req = some res)
    (hallow : res.response.allowed = true) :
    ∃ ops c, res.response.patch = some ops ∧
      isValidPatchJson (serializePatch ops) = true ∧
      Json.applyPatch ops req.object = some c ∧ Json.eqv c res.raw = true := by
  have hraw := runAll_wf cfg caps req hwf hcb
  rcases processorT_spec cfg caps req with ⟨hm, he⟩ | ⟨hm, he⟩ | ⟨hm, he⟩
  · rw [he] at h
    cases h
  · rw [he] at h
    obtain rfl := Option.some.inj h.symm
    cases hallow
  · rw [he] at h
    obtain rfl := Option.some.inj h.symm
    obtain ⟨c, happ, heqv⟩ :=
      Json.diff_apply req.object (runAll cfg caps req).raw hwf hraw
    exact ⟨Json.diff req.object (runAll cfg caps req).raw, c, rfl,
      serializePatch_valid _, happ, heqv⟩

/-- Witness for C4 at a concrete input. -/
theorem C4_patch_applies_witness :
    Json.wf reqW.object = true ∧
    ((processorT cfgW [capOne] reqW).getD dfltProc).response.allowed = true ∧
    ((processorT cfgW [capOne] reqW).getD dfltProc).response.patch.isSome = true := by
  refine ⟨by decide, by decide, ?_⟩
  have hcb : ∀ cap ∈ [capOne], ∀ b ∈ cap.bindings, ∀ raw : Json, Json.wf raw = true →
      Json.wf ((b.callback raw).1) = true := by
    intro cap hcap b hb raw hwr
    rcases List.mem_cons.mp hcap with rfl | h3
    · simp only [capOne, List.mem_singleton] at hb
      subst hb
      exact hwr
    · simp at h3
  obtain ⟨ops, c, hp, _, _, _⟩ := C4_patch_applies cfgW [capOne] reqW
    ((processorT cfgW [capOne] reqW).getD dfltProc) (by decide) hcb (by decide) (by decide)
  rw [hp]
  rfl

theorem processorT_eq_TD (cfg : ModuleConfig) (caps : List Capability) (req : Request) :
    processorTD (fun a b => .ok (Json.diff a b)) cfg caps req =
      processorT cfg caps req := by
  cases hm : (runAll cfg caps req).mode <;> simp [processorT, processorTD, hm]

/-- C8 counterexample: when the diff step fails, the processor returns no
response at all (the exception propagates to the caller); it does not return
an `allowed = false` response with result `"patch computation failed"`. -/
theorem C8_counterexample : processorTD errDiff cfgW [] reqW = none := by decide

/-- C8 (amended): a failure of the diff step propagates out of `processor`
uncaught: the processor produces no response, and in particular never one
with `result = "patch computation failed"`. -/
theorem C8_diff_failure_propagates (diffFn : Json → Json → Except String (List PatchOp))
    (cfg : ModuleConfig) (caps : List Capability) (req : Request) (e : String)
    (hm : (runAll cfg caps req).mode = .running)
    (he : diffFn req.object (runAll cfg caps req).raw = .error e) :
    processorTD diffFn cfg caps req = none := by
  simp [processorTD, hm, he]

/-- Witness for the amended C8 at a concrete input. -/
theorem C8_diff_failure_propagates_witness :
    (runAll cfgW [] reqW).mode = .running ∧
    errDiff reqW.object (runAll cfgW [] reqW).raw = .error "diff failed" ∧
    processorTD errDiff cfgW [] reqW = none :=
  ⟨by decide, rfl, C8_diff_failure_propagates errDiff cfgW [] reqW "diff failed"
    (by decide) rfl⟩
